import Mathlib

/-!
Verification of the crux-vault versioned encrypted key-value store.

A Python `str` or `bytes` value crossing the cipher boundary is represented
by its byte sequence, a `List Nat` with every element < 256 (for text, the
UTF-8 encoding).  Paths and secret values are such byte sequences; branch
names, commit messages and error texts never meet the cipher and stay `String`.
Timestamps are abstract `Nat` instants.  Randomness (the 12-byte nonce drawn
by `os.urandom`) and the clock (`datetime.utcnow`) are explicit parameters.
-/

namespace CruxVault

abbrev Bytes := List Nat

def bytesOk (bs : Bytes) : Prop := ∀ b ∈ bs, b < 256

instance (bs : Bytes) : Decidable (bytesOk bs) := by
  unfold bytesOk; infer_instance

/-! Base64 (RFC 4648 standard alphabet with padding), as used by the source
through `base64.b64encode` / `base64.b64decode`. -/

def b64CharOfIdx (i : Nat) : Char :=
  if i < 26 then Char.ofNat (65 + i)
  else if i < 52 then Char.ofNat (97 + (i - 26))
  else if i < 62 then Char.ofNat (48 + (i - 52))
  else if i = 62 then Char.ofNat 43
  else Char.ofNat 47

def padChar : Char := Char.ofNat 61

def b64IdxOfChar (c : Char) : Option Nat :=
  let n := c.toNat
  if 65 ≤ n ∧ n ≤ 90 then some (n - 65)
  else if 97 ≤ n ∧ n ≤ 122 then some (26 + (n - 97))
  else if 48 ≤ n ∧ n ≤ 57 then some (52 + (n - 48))
  else if n = 43 then some 62
  else if n = 47 then some 63
  else none

theorem b64IdxOfChar_b64CharOfIdx : ∀ i < 64, b64IdxOfChar (b64CharOfIdx i) = some i := by
  decide

theorem b64CharOfIdx_ne_padChar : ∀ i < 64, b64CharOfIdx i ≠ padChar := by
  decide

def b64encodeBytes : List Nat → List Char
  | [] => []
  | [b1] => [b64CharOfIdx (b1 / 4), b64CharOfIdx (b1 % 4 * 16), padChar, padChar]
  | [b1, b2] => [b64CharOfIdx (b1 / 4), b64CharOfIdx (b1 % 4 * 16 + b2 / 16),
      b64CharOfIdx (b2 % 16 * 4), padChar]
  | b1 :: b2 :: b3 :: rest =>
      b64CharOfIdx (b1 / 4) :: b64CharOfIdx (b1 % 4 * 16 + b2 / 16) ::
        b64CharOfIdx (b2 % 16 * 4 + b3 / 64) :: b64CharOfIdx (b3 % 64) ::
        b64encodeBytes rest

def b64decodeChars : List Char → Option (List Nat)
  | [] => some []
  | c1 :: c2 :: c3 :: c4 :: rest =>
      match b64IdxOfChar c1, b64IdxOfChar c2 with
      | some i1, some i2 =>
        if c4 = padChar then
          if rest.isEmpty then
            if c3 = padChar then some [i1 * 4 + i2 / 16]
            else
              match b64IdxOfChar c3 with
              | some i3 => some [i1 * 4 + i2 / 16, i2 % 16 * 16 + i3 / 4]
              | none => none
          else none
        else
          match b64IdxOfChar c3, b64IdxOfChar c4 with
          | some i3, some i4 =>
            match b64decodeChars rest with
            | some bs => some ((i1 * 4 + i2 / 16) :: (i2 % 16 * 16 + i3 / 4) ::
                (i3 % 4 * 64 + i4) :: bs)
            | none => none
          | _, _ => none
      | _, _ => none
  | _ => none

theorem b64decode_encode : ∀ bs : List Nat, bytesOk bs →
    b64decodeChars (b64encodeBytes bs) = some bs
  | [], _ => rfl
  | [b1], h => by
    have hb1 : b1 < 256 := h b1 (by simp)
    simp only [b64encodeBytes, b64decodeChars]
    rw [b64IdxOfChar_b64CharOfIdx (b1 / 4) (by omega),
      b64IdxOfChar_b64CharOfIdx (b1 % 4 * 16) (by omega)]
    simp only [List.isEmpty_nil, if_pos rfl, if_true]
    have : b1 / 4 * 4 + b1 % 4 * 16 / 16 = b1 := by omega
    rw [this]
  | [b1, b2], h => by
    have hb1 : b1 < 256 := h b1 (by simp)
    have hb2 : b2 < 256 := h b2 (by simp)
    simp only [b64encodeBytes, b64decodeChars]
    rw [b64IdxOfChar_b64CharOfIdx (b1 / 4) (by omega),
      b64IdxOfChar_b64CharOfIdx (b1 % 4 * 16 + b2 / 16) (by omega),
      b64IdxOfChar_b64CharOfIdx (b2 % 16 * 4) (by omega)]
    simp only [List.isEmpty_nil, if_pos rfl, if_true,
      if_neg (b64CharOfIdx_ne_padChar (b2 % 16 * 4) (by omega))]
    have e1 : b1 / 4 * 4 + (b1 % 4 * 16 + b2 / 16) / 16 = b1 := by omega
    have e2 : (b1 % 4 * 16 + b2 / 16) % 16 * 16 + b2 % 16 * 4 / 4 = b2 := by omega
    rw [e1, e2]
  | b1 :: b2 :: b3 :: rest, h => by
    have hb1 : b1 < 256 := h b1 (by simp)
    have hb2 : b2 < 256 := h b2 (by simp)
    have hb3 : b3 < 256 := h b3 (by simp)
    have ih := b64decode_encode rest (fun b hb => h b (by simp [hb]))
    simp only [b64encodeBytes, b64decodeChars]
    rw [b64IdxOfChar_b64CharOfIdx (b1 / 4) (by omega),
      b64IdxOfChar_b64CharOfIdx (b1 % 4 * 16 + b2 / 16) (by omega),
      b64IdxOfChar_b64CharOfIdx (b2 % 16 * 4 + b3 / 64) (by omega),
      b64IdxOfChar_b64CharOfIdx (b3 % 64) (by omega)]
    simp only [if_neg (b64CharOfIdx_ne_padChar (b3 % 64) (by omega)), ih]
    have e1 : b1 / 4 * 4 + (b1 % 4 * 16 + b2 / 16) / 16 = b1 := by omega
    have e2 : (b1 % 4 * 16 + b2 / 16) % 16 * 16 + (b2 % 16 * 4 + b3 / 64) / 4 = b2 := by omega
    have e3 : (b2 % 16 * 4 + b3 / 64) % 4 * 64 + b3 % 64 = b3 := by omega
    rw [e1, e2, e3]

/-! The AES-256-GCM primitive.  The source calls
`cryptography.hazmat.primitives.ciphers.aead.AESGCM`, an external library.
Modelled from the spec: authenticated encryption with a 96-bit nonce and a
16-byte tag; the ciphertext body is the plaintext XORed with a key- and
nonce-dependent keystream, and the tag is a key-, nonce- and body-dependent
checksum.  The concrete keystream and checksum functions stand in for the
AES core; only their shape (XOR stream plus recomputable tag) matters for
the properties proved here. -/

def gcmKeystreamByte (key nonce : Bytes) (i : Nat) : Nat :=
  (key.foldl (fun a b => a * 131 + b) 7 +
    nonce.foldl (fun a b => a * 137 + b) 11 + i * 29) % 256

def gcmTag (key nonce body : Bytes) : Bytes :=
  (List.range 16).map fun j =>
    (key.foldl (fun a b => a * 131 + b) 7 +
      nonce.foldl (fun a b => a * 139 + b) 13 +
      body.foldl (fun a b => a * 149 + b) 17 + j * 31) % 256

def xorStream (key nonce : Bytes) : Nat → Bytes → Bytes
  | _, [] => []
  | i, b :: bs => (b ^^^ gcmKeystreamByte key nonce i) :: xorStream key nonce (i + 1) bs

theorem xorStream_length (key nonce : Bytes) :
    ∀ (i : Nat) (bs : Bytes), (xorStream key nonce i bs).length = bs.length
  | _, [] => rfl
  | i, _ :: bs => by simp [xorStream, xorStream_length key nonce (i + 1) bs]

theorem xorStream_xorStream (key nonce : Bytes) :
    ∀ (i : Nat) (bs : Bytes), xorStream key nonce i (xorStream key nonce i bs) = bs
  | _, [] => rfl
  | i, b :: bs => by
    simp only [xorStream, Nat.xor_cancel_right, List.cons.injEq, true_and]
    exact xorStream_xorStream key nonce (i + 1) bs

theorem xorStream_bytesOk (key nonce : Bytes) :
    ∀ (i : Nat) (bs : Bytes), bytesOk bs → bytesOk (xorStream key nonce i bs)
  | _, [], _ => by intro b hb; simp [xorStream] at hb
  | i, b :: bs, h => by
    intro x hx
    simp only [xorStream, List.mem_cons] at hx
    rcases hx with hx | hx
    · subst hx
      have hb : b < 256 := h b (by simp)
      have hk : gcmKeystreamByte key nonce i < 256 := Nat.mod_lt _ (by omega)
      calc b ^^^ gcmKeystreamByte key nonce i < 2 ^ 8 :=
            Nat.xor_lt_two_pow (by norm_num at hb ⊢; omega) (by norm_num; omega)
        _ = 256 := by norm_num
    · exact xorStream_bytesOk key nonce (i + 1) bs (fun y hy => h y (by simp [hy])) x hx

theorem gcmTag_length (key nonce body : Bytes) : (gcmTag key nonce body).length = 16 := by
  simp [gcmTag]

theorem gcmTag_bytesOk (key nonce body : Bytes) : bytesOk (gcmTag key nonce body) := by
  intro b hb
  simp only [gcmTag, List.mem_map] at hb
  obtain ⟨j, _, rfl⟩ := hb
  exact Nat.mod_lt _ (by omega)

def aesgcmEncrypt (key nonce pt : Bytes) : Bytes :=
  let body := xorStream key nonce 0 pt
  body ++ gcmTag key nonce body

def aesgcmDecrypt (key nonce data : Bytes) : Option Bytes :=
  if data.length < 16 then none
  else
    let body := data.take (data.length - 16)
    let tag := data.drop (data.length - 16)
    if tag = gcmTag key nonce body then some (xorStream key nonce 0 body) else none

theorem aesgcmDecrypt_encrypt (key nonce pt : Bytes) :
    aesgcmDecrypt key nonce (aesgcmEncrypt key nonce pt) = some pt := by
  have hlen : (xorStream key nonce 0 pt).length = pt.length := xorStream_length key nonce 0 pt
  have htag : (gcmTag key nonce (xorStream key nonce 0 pt)).length = 16 := gcmTag_length ..
  simp only [aesgcmEncrypt, aesgcmDecrypt, List.length_append, hlen, htag]
  have hsub : pt.length + 16 - 16 = pt.length := by omega
  rw [if_neg (by omega), hsub]
  rw [show pt.length = (xorStream key nonce 0 pt).length from hlen.symm,
    List.take_left, List.drop_left]
  rw [if_pos rfl, xorStream_xorStream]

/-! The `Encryptor` wrapper, from `src/unified/crypto/encryption.py`
(`cruxvault.crypto.encryption` is a duplicate draft of the same file).
The nonce drawn by `os.urandom(12)` inside `encrypt` is an explicit
parameter; `decrypt` returns `none` where the source raises
`EncryptionError`. -/

structure Encryptor where
  master_key : Bytes
deriving DecidableEq, Repr

def Encryptor.make (master_key : Bytes) : Except String Encryptor :=
  if master_key.length ≠ 32 then
    Except.error "Master key must be exactly 32 bytes for AES-256"
  else Except.ok ⟨master_key⟩

def Encryptor.encrypt (e : Encryptor) (nonce : Bytes) (plaintext : Bytes) : String :=
  String.mk (b64encodeBytes (nonce ++ aesgcmEncrypt e.master_key nonce plaintext))

def Encryptor.decrypt (e : Encryptor) (encrypted : String) : Option Bytes :=
  match b64decodeChars encrypted.data with
  | none => none
  | some combined =>
      aesgcmDecrypt e.master_key (combined.take 12) (combined.drop 12)

theorem encryptor_decrypt_encrypt (key nonce v : Bytes)
    (hnonce : nonce.length = 12) (hnb : bytesOk nonce) (hvb : bytesOk v) :
    Encryptor.decrypt ⟨key⟩ (Encryptor.encrypt ⟨key⟩ nonce v) = some v := by
  have hok : bytesOk (nonce ++ aesgcmEncrypt key nonce v) := by
    intro b hb
    rcases List.mem_append.mp hb with hb | hb
    · exact hnb b hb
    · rcases List.mem_append.mp hb with hb | hb
      · exact xorStream_bytesOk key nonce 0 v hvb b hb
      · exact gcmTag_bytesOk key nonce _ b hb
  simp only [Encryptor.encrypt, Encryptor.decrypt]
  rw [b64decode_encode _ hok]
  rw [show (12 : Nat) = nonce.length from hnonce.symm]
  change aesgcmDecrypt key (List.take nonce.length (nonce ++ aesgcmEncrypt key nonce v))
    (List.drop nonce.length (nonce ++ aesgcmEncrypt key nonce v)) = some v
  rw [List.take_left, List.drop_left]
  exact aesgcmDecrypt_encrypt key nonce v

/-- C1: for every 32-byte key `k` and every value `v` (a UTF-8 byte sequence),
constructing the cipher with `k` succeeds and `decrypt (encrypt v) = v`:
`encrypt` produces `base64 (nonce ++ ciphertext ++ tag)` for the fresh
12-byte nonce drawn inside it (here an explicit parameter), and `decrypt`
inverts it. -/
theorem c1_decrypt_encrypt_roundtrip (key nonce v : Bytes)
    (hkey : key.length = 32) (hnonce : nonce.length = 12)
    (hnb : bytesOk nonce) (hvb : bytesOk v) :
    Encryptor.make key = Except.ok ⟨key⟩ ∧
      Encryptor.decrypt ⟨key⟩ (Encryptor.encrypt ⟨key⟩ nonce v) = some v := by
  constructor
  · simp [Encryptor.make, hkey]
  · exact encryptor_decrypt_encrypt key nonce v hnonce hnb hvb

/-- Witness for C1 at a concrete key, nonce and plaintext. -/
theorem c1_witness :
    Encryptor.decrypt ⟨List.replicate 32 7⟩
        (Encryptor.encrypt ⟨List.replicate 32 7⟩ (List.replicate 12 3) [104, 105]) =
      some [104, 105] :=
  (c1_decrypt_encrypt_roundtrip (List.replicate 32 7) (List.replicate 12 3) [104, 105]
    (by decide) (by decide) (by decide) (by decide)).2

/-! The SQLite store, from `src/cruxvault/storage/local.py`.  Each table is a
row list; SQLAlchemy autoincrement ids for commits become `next_commit_id`.
A JSON-encoded tag column round-trips `json.dumps`/`json.loads` on a list of
strings, so tags are carried as `List String` directly.  The free-form
`meta_data` column is not touched by any claim and is omitted.  In-place row
updates (`existing.version += 1` etc.) become a map over the table replacing
the rows whose key matches. -/

structure SecretRow where
  path : Bytes
  encrypted_value : String
  type : String
  version : Nat
  created_at : Nat
  updated_at : Nat
  tags : List String
deriving DecidableEq, Repr

structure VersionRow where
  path : Bytes
  encrypted_value : String
  version : Nat
  created_at : Nat
  created_by : String
deriving DecidableEq, Repr

structure BranchRow where
  name : String
  head_commit_id : Option Nat
  created_at : Nat
deriving DecidableEq, Repr

structure CommitRow where
  id : Nat
  parent_id : Option Nat
  message : String
  author : String
  timestamp : Nat
  branch : String
deriving DecidableEq, Repr

structure CommitSecretRow where
  commit_id : Nat
  path : Bytes
  encrypted_value : String
  type : String
  tags : List String
deriving DecidableEq, Repr

structure Store where
  secrets : List SecretRow
  secret_versions : List VersionRow
  branches : List BranchRow
  commits : List CommitRow
  commit_secrets : List CommitSecretRow
  next_commit_id : Nat
deriving DecidableEq, Repr

def emptyStore : Store := ⟨[], [], [], [], [], 1⟩

/-! Values returned to callers (the pydantic models in `cruxvault/models.py`,
with plaintext values as byte sequences). -/

structure Secret where
  path : Bytes
  value : Bytes
  type : String
  version : Nat
  created_at : Nat
  updated_at : Nat
  tags : List String
deriving DecidableEq, Repr

structure MergeConflict where
  path : Bytes
  current_value : Bytes
  incoming_value : Bytes
deriving DecidableEq, Repr

structure StatusResult where
  added : List Bytes
  modified : List Bytes
  deleted : List Bytes
deriving DecidableEq, Repr

/-- A path rendered into an error message (paths in practice are ASCII). -/
def showPath (p : Bytes) : String := String.mk (p.map Char.ofNat)

def findSecret (rows : List SecretRow) (p : Bytes) : Option SecretRow :=
  rows.find? (fun r => r.path == p)

def findBranch (rows : List BranchRow) (n : String) : Option BranchRow :=
  rows.find? (fun b => b.name == n)

def snapshotAt (st : Store) (cid : Nat) : List CommitSecretRow :=
  st.commit_secrets.filter (fun cs => cs.commit_id == cid)

/-- SQLiteStorage.set_secret.  `nonce` is the fresh `os.urandom(12)` draw made
inside `Encryptor.encrypt`, `now` the `datetime.utcnow()` reading, `user` the
`os.getenv("USER", "unknown")` result. -/
def setSecret (key : Bytes) (st : Store) (nonce : Bytes) (now : Nat) (user : String)
    (path : Bytes) (value : Bytes) (secret_type : String) (tags : List String) :
    Store × Secret :=
  let encrypted_value := Encryptor.encrypt ⟨key⟩ nonce value
  match findSecret st.secrets path with
  | some existing =>
      let version_record : VersionRow :=
        ⟨existing.path, existing.encrypted_value, existing.version, existing.updated_at, user⟩
      let updated : SecretRow :=
        { existing with
            encrypted_value := encrypted_value
            version := existing.version + 1
            updated_at := now
            tags := tags }
      ({ st with
          secrets := st.secrets.map (fun r => if r.path == path then updated else r),
          secret_versions := st.secret_versions ++ [version_record] },
        ⟨existing.path, value, existing.type, existing.version + 1,
          existing.created_at, now, tags⟩)
  | none =>
      let new_secret : SecretRow := ⟨path, encrypted_value, secret_type, 1, now, now, tags⟩
      ({ st with secrets := st.secrets ++ [new_secret] },
        ⟨path, value, secret_type, 1, now, now, tags⟩)

/-- SQLiteStorage.delete_secret: removes the current row and every
SecretVersion row for the path. -/
def deleteSecret (st : Store) (path : Bytes) : Store × Bool :=
  match findSecret st.secrets path with
  | none => (st, false)
  | some _ =>
      ({ st with
          secrets := st.secrets.filter (fun r => r.path != path),
          secret_versions := st.secret_versions.filter (fun v => v.path != path) }, true)

/-- SQLiteStorage.rollback.  Snapshots the current row into history, then
copies the target version ciphertext into the current row and bumps the
version; the returned Secret re-decrypts the (copied) ciphertext. -/
def rollback (key : Bytes) (st : Store) (now : Nat) (user : String)
    (path : Bytes) (version : Nat) : Except String (Store × Secret) :=
  match st.secret_versions.find? (fun v => v.path == path && v.version == version) with
  | none => Except.error ("Version " ++ toString version ++ " not found for " ++ showPath path)
  | some version_model =>
  match findSecret st.secrets path with
  | none => Except.error ("Secret " ++ showPath path ++ " not found")
  | some current =>
  match Encryptor.decrypt ⟨key⟩ version_model.encrypted_value with
  | none => Except.error "Decryption failed"
  | some decrypted_value =>
      let history_record : VersionRow :=
        ⟨current.path, current.encrypted_value, current.version, current.updated_at, user⟩
      let updated : SecretRow :=
        { current with
            encrypted_value := version_model.encrypted_value
            version := current.version + 1
            updated_at := now }
      Except.ok
        ({ st with
            secrets := st.secrets.map (fun r => if r.path == path then updated else r),
            secret_versions := st.secret_versions ++ [history_record] },
          ⟨current.path, decrypted_value, current.type, current.version + 1,
            current.created_at, now, current.tags⟩)

/-- SQLiteStorage.create_branch. -/
def createBranch (st : Store) (now : Nat) (name : String) (from_branch : Option String) :
    Except String (Store × BranchRow) :=
  match findBranch st.branches name with
  | some _ => Except.error ("Branch \x27" ++ name ++ "\x27 already exists")
  | none =>
  match from_branch with
  | some fb =>
      match findBranch st.branches fb with
      | none => Except.error ("Branch \x27" ++ fb ++ "\x27 not found")
      | some source_branch =>
          let branch : BranchRow := ⟨name, source_branch.head_commit_id, now⟩
          Except.ok ({ st with branches := st.branches ++ [branch] }, branch)
  | none =>
      let branch : BranchRow := ⟨name, none, now⟩
      Except.ok ({ st with branches := st.branches ++ [branch] }, branch)

/-- How commit snapshots a current secret: ciphertext copied as-is, no
re-encryption. -/
def commitSecretOfRow (cid : Nat) (s : SecretRow) : CommitSecretRow :=
  CommitSecretRow.mk cid s.path s.encrypted_value s.type s.tags

/-- SQLiteStorage.commit: creates a commit whose parent is the branch head,
snapshots every current secret ciphertext as-is into CommitSecret rows, and
advances the branch head. -/
def commitOp (st : Store) (now : Nat) (branch_name : String) (message : String)
    (author : String) : Except String (Store × CommitRow) :=
  match findBranch st.branches branch_name with
  | none => Except.error ("Branch \x27" ++ branch_name ++ "\x27 not found")
  | some branch =>
      let cid := st.next_commit_id
      let commit : CommitRow := ⟨cid, branch.head_commit_id, message, author, now, branch_name⟩
      let snap := st.secrets.map (commitSecretOfRow cid)
      Except.ok
        ({ st with
            commits := st.commits ++ [commit],
            commit_secrets := st.commit_secrets ++ snap,
            branches := st.branches.map
              (fun b => if b.name == branch_name then { b with head_commit_id := some cid } else b),
            next_commit_id := cid + 1 }, commit)

/-- How checkout, reset and merge rebuild a current Secret row from a
CommitSecret row: ciphertext, type and tags copied, version reset to 1. -/
def restoredRow (now : Nat) (cs : CommitSecretRow) : SecretRow :=
  ⟨cs.path, cs.encrypted_value, cs.type, 1, now, now, cs.tags⟩

/-- SQLiteStorage.checkout_branch: deletes every current Secret row, then, if
the branch has a head, re-inserts one row per CommitSecret at that head. -/
def checkoutBranch (st : Store) (now : Nat) (branch_name : String) : Except String Store :=
  match findBranch st.branches branch_name with
  | none => Except.error ("Branch \x27" ++ branch_name ++ "\x27 not found")
  | some branch =>
      match branch.head_commit_id with
      | none => Except.ok { st with secrets := [] }
      | some cid =>
          Except.ok { st with secrets := (snapshotAt st cid).map (restoredRow now) }

/-- SQLiteStorage.rollback_to_commit: moves the branch head and rebuilds the
working set from the commit snapshot exactly as checkout does. -/
def rollbackToCommit (st : Store) (now : Nat) (branch_name : String) (commit_id : Nat) :
    Except String Store :=
  match st.commits.find? (fun c => c.id == commit_id) with
  | none => Except.error ("Commit " ++ toString commit_id ++ " not found")
  | some _ =>
  match findBranch st.branches branch_name with
  | none => Except.error ("Branch \x27" ++ branch_name ++ "\x27 not found")
  | some _ =>
      Except.ok { st with
        branches := st.branches.map
          (fun b => if b.name == branch_name then { b with head_commit_id := some commit_id } else b),
        secrets := (snapshotAt st commit_id).map (restoredRow now) }

/-- SQLiteStorage.get_status: baseline is the snapshot at the branch head
(all current paths count as added when there is no branch or no head);
compares ciphertext bytes. -/
def getStatus (st : Store) (branch_name : String) : StatusResult :=
  match findBranch st.branches branch_name with
  | none => ⟨st.secrets.map (·.path), [], []⟩
  | some branch =>
    match branch.head_commit_id with
    | none => ⟨st.secrets.map (·.path), [], []⟩
    | some cid =>
      let committed := snapshotAt st cid
      let added := (st.secrets.filter
        (fun s => (committed.find? (fun cs => cs.path == s.path)).isNone)).map (·.path)
      let modified := (st.secrets.filter
        (fun s => match committed.find? (fun cs => cs.path == s.path) with
          | some cs => cs.encrypted_value != s.encrypted_value
          | none => false)).map (·.path)
      let deleted := (committed.filter
        (fun cs => (findSecret st.secrets cs.path).isNone)).map (·.path)
      ⟨added, modified, deleted⟩

/-- Conflict scan of SQLiteStorage.merge_branch: walk the source snapshot in
order; a path also present in the target snapshot with different ciphertext
yields a MergeConflict carrying both decrypted values (a failed decryption
raises, modelled as an error). -/
def conflictsOf (key : Bytes) (target_secrets : List CommitSecretRow) :
    List CommitSecretRow → Except String (List MergeConflict)
  | [] => Except.ok []
  | cs :: rest =>
    match target_secrets.find? (fun t => t.path == cs.path) with
    | some t =>
      if t.encrypted_value != cs.encrypted_value then
        match Encryptor.decrypt ⟨key⟩ t.encrypted_value,
            Encryptor.decrypt ⟨key⟩ cs.encrypted_value with
        | some cur, some inc =>
          match conflictsOf key target_secrets rest with
          | Except.ok cf => Except.ok (⟨cs.path, cur, inc⟩ :: cf)
          | Except.error e => Except.error e
        | _, _ => Except.error "Decryption failed"
      else conflictsOf key target_secrets rest
    | none => conflictsOf key target_secrets rest

/-- The target side of a merge: the snapshot at the target head, or nothing
when the target branch has no commits. -/
def targetSnapshot (st : Store) (head : Option Nat) : List CommitSecretRow :=
  match head with
  | some tcid => snapshotAt st tcid
  | none => []

/-- SQLiteStorage.merge_branch: a null source head is a no-op; any conflict
returns `(false, conflicts)` without mutating; otherwise the working set is
deleted and rebuilt from the source snapshot only. -/
def mergeBranch (key : Bytes) (st : Store) (now : Nat)
    (target_branch source_branch : String) :
    Except String (Store × Bool × List MergeConflict) :=
  match findBranch st.branches target_branch with
  | none => Except.error ("Branch \x27" ++ target_branch ++ "\x27 not found")
  | some target =>
  match findBranch st.branches source_branch with
  | none => Except.error ("Branch \x27" ++ source_branch ++ "\x27 not found")
  | some source =>
  match source.head_commit_id with
  | none => Except.ok (st, true, [])
  | some scid =>
    let target_secrets := targetSnapshot st target.head_commit_id
    let source_secrets := snapshotAt st scid
    match conflictsOf key target_secrets source_secrets with
    | Except.error e => Except.error e
    | Except.ok conflicts =>
      if conflicts.isEmpty then
        Except.ok ({ st with secrets := source_secrets.map (restoredRow now) }, true, [])
      else Except.ok (st, false, conflicts)

/-- The `merge` CLI command from `src/cruxvault/cli.py`: refuses a self-merge
before touching storage, surfaces conflicts (unless forced), and creates a
merge commit on success.  `print_error` plus `sys.exit(1)` become an error
result. -/
def cliMerge (key : Bytes) (st : Store) (now : Nat)
    (current_branch source_branch : String) (force : Bool) : Except String Store :=
  if current_branch == source_branch then Except.error "Cannot merge branch into itself"
  else
    match mergeBranch key st now current_branch source_branch with
    | Except.error e => Except.error ("Merge failed: " ++ e)
    | Except.ok (st', success, conflicts) =>
      if ¬conflicts.isEmpty ∧ ¬force then Except.error "Merge conflicts detected"
      else if success then
        match commitOp st' now current_branch
            ("Merge branch \x27" ++ source_branch ++ "\x27 into " ++ current_branch)
            "unknown" with
        | Except.ok (st'', _) => Except.ok st''
        | Except.error e => Except.error ("Merge failed: " ++ e)
      else Except.error "Merge failed"

/-! Variable expansion and reads.  `get_secret` runs the decrypted value
through `_expand_variables`, which substitutes every `${name}` occurrence
(regex `\$\{([^}]+)\}`, so a nonempty name without a closing brace) by the
recursively expanded value of the referenced secret, leaving the reference
verbatim whenever resolution fails for any reason (missing path, decryption
failure, circular reference, recursion overflow — the bare `except` in
`replace_var`).  Python recursion depth becomes an explicit fuel; the
raised circular-reference `ValueError` (and a recursion overflow) becomes
`Except.error`. -/

def dollarByte : Nat := 36
def openBraceByte : Nat := 123
def closeBraceByte : Nat := 125

def splitAtClose : List Nat → Option (Bytes × Bytes)
  | [] => none
  | b :: bs =>
    if b == closeBraceByte then some ([], bs)
    else
      match splitAtClose bs with
      | some (nm, rest) => some (b :: nm, rest)
      | none => none

theorem splitAtClose_length : ∀ (bs nm rest : List Nat),
    splitAtClose bs = some (nm, rest) → rest.length < bs.length := by
  intro bs
  induction bs with
  | nil => intro nm rest h; simp [splitAtClose] at h
  | cons b bs ih =>
    intro nm rest h
    simp only [splitAtClose] at h
    by_cases hb : (b == closeBraceByte) = true
    · rw [if_pos hb] at h
      cases h
      simp
    · rw [if_neg hb] at h
      cases hsp : splitAtClose bs with
      | none => rw [hsp] at h; cases h
      | some p =>
        rw [hsp] at h
        cases h
        have := ih p.1 p.2 (by rw [hsp])
        simp only [List.length_cons]
        omega

/-- The `re.sub` pass of `_expand_variables`: scan left to right; each match
`${name}` is replaced via `resolve`, or kept verbatim when `resolve` fails;
non-matching text (no `{` after `$`, empty name, or no closing brace) is
copied and rescanned one byte further on. -/
def substRefs (resolve : Bytes → Option Bytes) : List Nat → List Nat
  | [] => []
  | [b] => [b]
  | b :: b2 :: bs2 =>
    if b == dollarByte then
      if b2 == openBraceByte then
        match hsp : splitAtClose bs2 with
        | some (nm, rest) =>
          if nm.isEmpty then b :: substRefs resolve (b2 :: bs2)
          else
            match resolve nm with
            | some repl => repl ++ substRefs resolve rest
            | none =>
              dollarByte :: openBraceByte :: (nm ++ closeBraceByte :: substRefs resolve rest)
        | none => b :: substRefs resolve (b2 :: bs2)
      else b :: substRefs resolve (b2 :: bs2)
    else b :: substRefs resolve (b2 :: bs2)
termination_by bs => bs.length
decreasing_by
  all_goals simp only [List.length_cons]
  all_goals try omega
  all_goals have hlt := splitAtClose_length _ _ _ hsp
  all_goals omega

mutual

/-- SQLiteStorage._expand_variables. -/
def expandVariables (key : Bytes) (st : Store) :
    Nat → Bytes → Bytes → List Bytes → Except Unit Bytes
  | 0, _, _, _ => Except.error ()
  | fuel + 1, value, path, visited =>
    if path ∈ visited then Except.error ()
    else Except.ok (substRefs (fun nm => replaceVar key st fuel nm (path :: visited)) value)
termination_by fuel => (fuel, 2)

/-- The `replace_var` closure inside `_expand_variables`: fetch the referenced
secret (itself expanded by `get_secret`), then expand it once more under the
current visited set; any failure leaves the reference verbatim (`none`). -/
def replaceVar (key : Bytes) (st : Store) :
    Nat → Bytes → List Bytes → Option Bytes
  | 0, _, _ => none
  | fuel + 1, nm, visited =>
    match getSecretValue key st fuel nm with
    | some (some v) => (expandVariables key st fuel v nm visited).toOption
    | _ => none
termination_by fuel => (fuel, 1)

/-- The value field of SQLiteStorage.get_secret: `some none` is a miss,
`none` an exception (decryption failure or recursion overflow), and
`some (some v)` the decrypted, variable-expanded value. -/
def getSecretValue (key : Bytes) (st : Store) :
    Nat → Bytes → Option (Option Bytes)
  | 0, _ => none
  | fuel + 1, path =>
    match findSecret st.secrets path with
    | none => some none
    | some row =>
      match Encryptor.decrypt ⟨key⟩ row.encrypted_value with
      | none => none
      | some dec =>
        match expandVariables key st fuel dec path [] with
        | Except.ok expanded => some (some expanded)
        | Except.error _ => none
termination_by fuel => (fuel, 0)

end

def lexLe : Bytes → Bytes → Bool
  | [], _ => true
  | _ :: _, [] => false
  | x :: xs, y :: ys => if x < y then true else if y < x then false else lexLe xs ys

def secretOfRow (key : Bytes) (r : SecretRow) : Option Secret :=
  match Encryptor.decrypt ⟨key⟩ r.encrypted_value with
  | none => none
  | some dec =>
      some (Secret.mk r.path dec r.type r.version r.created_at r.updated_at r.tags)

/-- The row loop of list_secrets: decrypt each row in turn, failing on the
first decryption error. -/
def decryptRows (key : Bytes) : List SecretRow → Option (List Secret)
  | [] => some []
  | r :: rest =>
    match secretOfRow key r with
    | none => none
    | some s =>
      match decryptRows key rest with
      | none => none
      | some l => some (s :: l)

/-- SQLiteStorage.list_secrets: rows ordered by path ascending, optional
literal prefix filter, each value decrypted but NOT variable-expanded
(`none` models the decryption exception). -/
def listSecrets (key : Bytes) (st : Store) (pre : Option Bytes) : Option (List Secret) :=
  let rows : List SecretRow := match pre with
    | some p => st.secrets.filter (fun r => p.isPrefixOf r.path)
    | none => st.secrets
  decryptRows key (rows.mergeSort (fun a b => lexLe a.path b.path))

/-! Generic lookup lemmas. -/

theorem find?_map_key {α β κ : Type} [BEq κ] (g : α → β) (ka : α → κ) (kb : β → κ)
    (hg : ∀ a, kb (g a) = ka a) (l : List α) (q : κ) :
    (l.map g).find? (fun x => kb x == q) = (l.find? (fun a => ka a == q)).map g := by
  induction l with
  | nil => rfl
  | cons a l ih =>
    simp only [List.map_cons, List.find?, hg a]
    cases h : ka a == q with
    | true => rfl
    | false => exact ih

theorem find?_eq_of_nodup_mem {α κ : Type} [BEq κ] [LawfulBEq κ] (ka : α → κ)
    (l : List α) (a : α) (hmem : a ∈ l) (hnd : (l.map ka).Nodup) :
    l.find? (fun x => ka x == ka a) = some a := by
  induction l with
  | nil => cases hmem
  | cons b l ih =>
    simp only [List.map_cons, List.nodup_cons] at hnd
    rcases List.mem_cons.mp hmem with rfl | hmem
    · simp [List.find?]
    · have hne : ka b ≠ ka a := by
        intro he
        exact hnd.1 (he ▸ List.mem_map_of_mem ka hmem)
      simp only [List.find?]
      rw [show (ka b == ka a) = false from beq_eq_false_iff_ne.mpr hne]
      exact ih hmem hnd.2

theorem findSecret_some_path {rows : List SecretRow} {p : Bytes} {r : SecretRow}
    (h : findSecret rows p = some r) : r.path = p := by
  have := List.find?_some h
  exact beq_iff_eq.mp this

theorem findSecret_map_ite (rows : List SecretRow) (p : Bytes) (u : SecretRow)
    (hu : u.path = p) (q : Bytes) :
    findSecret (rows.map fun r => if r.path == p then u else r) q =
      (findSecret rows q).map (fun r => if r.path == p then u else r) := by
  refine find?_map_key _ (fun r : SecretRow => r.path) (fun r : SecretRow => r.path) ?_ rows q
  intro a
  by_cases h : (a.path == p) = true
  · simp [h, hu, beq_iff_eq.mp h]
  · simp [h]

theorem findBranch_map_head (rows : List BranchRow) (n : String) (c : Option Nat) (q : String) :
    findBranch (rows.map fun b => if b.name == n then { b with head_commit_id := c } else b) q =
      (findBranch rows q).map
        (fun b => if b.name == n then { b with head_commit_id := c } else b) := by
  refine find?_map_key _ (fun b : BranchRow => b.name) (fun b : BranchRow => b.name) ?_ rows q
  intro a
  by_cases h : (a.name == n) = true
  · simp [h]
  · simp [h]

/-- C6: for a path that already has a current row, set_secret snapshots the
existing ciphertext, version and updated_at into a new SecretVersion row,
then overwrites the current row with the fresh encryption of the value,
bumps the version by exactly 1, replaces the tags, keeps the type (and
created_at), and returns a Secret carrying the plaintext and new version. -/
theorem c6_set_secret_existing (key : Bytes) (st : Store) (nonce : Bytes) (now : Nat)
    (user : String) (path value : Bytes) (ty : String) (tags : List String)
    (existing : SecretRow) (hex : findSecret st.secrets path = some existing) :
    (setSecret key st nonce now user path value ty tags).1.secret_versions =
        st.secret_versions ++
          [VersionRow.mk existing.path existing.encrypted_value existing.version
            existing.updated_at user] ∧
      findSecret (setSecret key st nonce now user path value ty tags).1.secrets path =
        some (SecretRow.mk existing.path (Encryptor.encrypt ⟨key⟩ nonce value)
          existing.type (existing.version + 1) existing.created_at now tags) ∧
      (setSecret key st nonce now user path value ty tags).2.value = value ∧
      (setSecret key st nonce now user path value ty tags).2.version = existing.version + 1 ∧
      (setSecret key st nonce now user path value ty tags).2.tags = tags := by
  have hpath : existing.path = path := findSecret_some_path hex
  refine ⟨?_, ?_, ?_, ?_, ?_⟩ <;> simp only [setSecret, hex]
  rw [findSecret_map_ite st.secrets path
    (SecretRow.mk existing.path (Encryptor.encrypt ⟨key⟩ nonce value) existing.type
      (existing.version + 1) existing.created_at now tags) hpath path, hex]
  simp [hpath]

/-- Witness for C6 on a one-row store. -/
theorem c6_witness :
    findSecret
        (setSecret (List.replicate 32 7)
          ⟨[SecretRow.mk [97] "x" "secret" 1 0 0 []], [], [], [], [], 1⟩
          (List.replicate 12 3) 5 "u" [97] [104] "secret" ["t"]).1.secrets [97] =
      some (SecretRow.mk [97]
        (Encryptor.encrypt ⟨List.replicate 32 7⟩ (List.replicate 12 3) [104])
        "secret" 2 0 5 ["t"]) :=
  (c6_set_secret_existing (List.replicate 32 7)
    ⟨[SecretRow.mk [97] "x" "secret" 1 0 0 []], [], [], [], [], 1⟩
    (List.replicate 12 3) 5 "u" [97] [104] "secret" ["t"]
    (SecretRow.mk [97] "x" "secret" 1 0 0 []) (by decide)).2.1

/-- C5: a successful rollback(p, k) snapshots the previous current
ciphertext/version into a new SecretVersion row, makes the current row
decrypt to exactly what history version k decrypts to, sets the current
version to the previous current version plus 1, and leaves the tags
untouched. -/
theorem c5_rollback (key : Bytes) (st : Store) (now : Nat) (user : String)
    (path : Bytes) (k : Nat) (vm : VersionRow) (current : SecretRow) (val : Bytes)
    (hvm : st.secret_versions.find? (fun v => v.path == path && v.version == k) = some vm)
    (hcur : findSecret st.secrets path = some current)
    (hdec : Encryptor.decrypt ⟨key⟩ vm.encrypted_value = some val) :
    ∃ st' sec, rollback key st now user path k = Except.ok (st', sec) ∧
      sec.value = val ∧
      sec.version = current.version + 1 ∧
      sec.tags = current.tags ∧
      st'.secret_versions = st.secret_versions ++
        [VersionRow.mk current.path current.encrypted_value current.version
          current.updated_at user] ∧
      (∃ row, findSecret st'.secrets path = some row ∧
        row.encrypted_value = vm.encrypted_value ∧
        Encryptor.decrypt ⟨key⟩ row.encrypted_value = some val ∧
        row.version = current.version + 1 ∧
        row.tags = current.tags ∧
        row.type = current.type) := by
  have hpath : current.path = path := findSecret_some_path hcur
  have h : rollback key st now user path k = Except.ok
      ({ st with
          secrets := st.secrets.map (fun r => if r.path == path then
            { current with encrypted_value := vm.encrypted_value, version := current.version + 1, updated_at := now } else r)
          secret_versions := st.secret_versions ++
            [VersionRow.mk current.path current.encrypted_value current.version
              current.updated_at user] },
        Secret.mk current.path val current.type (current.version + 1)
          current.created_at now current.tags) := by
    simp only [rollback, hvm, hcur, hdec]
  refine ⟨_, _, h, rfl, rfl, rfl, rfl, ?_⟩
  refine ⟨{ current with encrypted_value := vm.encrypted_value, version := current.version + 1, updated_at := now }, ?_, rfl, hdec, rfl, rfl, rfl⟩
  rw [show ({ st with
      secrets := st.secrets.map (fun r => if r.path == path then
        { current with encrypted_value := vm.encrypted_value, version := current.version + 1, updated_at := now } else r)
      secret_versions := st.secret_versions ++
        [VersionRow.mk current.path current.encrypted_value current.version
          current.updated_at user] } : Store).secrets =
    st.secrets.map (fun r => if r.path == path then
      { current with encrypted_value := vm.encrypted_value, version := current.version + 1, updated_at := now } else r) from rfl]
  rw [findSecret_map_ite st.secrets path
    { current with encrypted_value := vm.encrypted_value, version := current.version + 1, updated_at := now } hpath path, hcur]
  simp [hpath]

/-- Witness for C5 on a concrete store holding one history version. -/
theorem c5_witness :
    ∃ st' sec,
      rollback (List.replicate 32 7)
          ⟨[SecretRow.mk [97] "x" "secret" 2 0 1 ["t"]],
            [VersionRow.mk [97]
              (Encryptor.encrypt ⟨List.replicate 32 7⟩ (List.replicate 12 3) [104]) 1 0 "u"],
            [], [], [], 1⟩ 5 "u" [97] 1 = Except.ok (st', sec) ∧
        sec.value = [104] ∧ sec.version = 3 :=
  match c5_rollback (List.replicate 32 7)
      ⟨[SecretRow.mk [97] "x" "secret" 2 0 1 ["t"]],
        [VersionRow.mk [97]
          (Encryptor.encrypt ⟨List.replicate 32 7⟩ (List.replicate 12 3) [104]) 1 0 "u"],
        [], [], [], 1⟩ 5 "u" [97] 1
      (VersionRow.mk [97]
        (Encryptor.encrypt ⟨List.replicate 32 7⟩ (List.replicate 12 3) [104]) 1 0 "u")
      (SecretRow.mk [97] "x" "secret" 2 0 1 ["t"]) [104]
      (by decide)
      (by decide)
      (encryptor_decrypt_encrypt (List.replicate 32 7) (List.replicate 12 3) [104]
        (by decide) (by decide) (by decide)) with
  | ⟨st', sec, h1, h2, h3, _⟩ => ⟨st', sec, h1, h2, h3⟩

/-- C7: after a successful checkout of branch b the working set is exactly
one current row per CommitSecret in the head snapshot, carrying that
snapshot's ciphertext, type and tags with version reset to 1; a null head
empties the working set. -/
theorem c7_checkout (st : Store) (now : Nat) (b : String) (branch : BranchRow)
    (hb : findBranch st.branches b = some branch) :
    (branch.head_commit_id = none →
      checkoutBranch st now b = Except.ok { st with secrets := [] }) ∧
    (∀ cid, branch.head_commit_id = some cid →
      checkoutBranch st now b =
        Except.ok { st with secrets := (snapshotAt st cid).map (restoredRow now) }) := by
  constructor
  · intro hnone
    simp only [checkoutBranch, hb, hnone]
  · intro cid hcid
    simp only [checkoutBranch, hb, hcid]

/-- Witness for C7 on a concrete store with one committed secret. -/
theorem c7_witness :
    checkoutBranch
        ⟨[], [], [BranchRow.mk "main" (some 1) 0], [CommitRow.mk 1 none "m" "u" 0 "main"],
          [CommitSecretRow.mk 1 [97] "ct" "secret" ["t"]], 2⟩ 9 "main" =
      Except.ok
        ⟨[SecretRow.mk [97] "ct" "secret" 1 9 9 ["t"]], [],
          [BranchRow.mk "main" (some 1) 0], [CommitRow.mk 1 none "m" "u" 0 "main"],
          [CommitSecretRow.mk 1 [97] "ct" "secret" ["t"]], 2⟩ := by
  have h := (c7_checkout
    ⟨[], [], [BranchRow.mk "main" (some 1) 0], [CommitRow.mk 1 none "m" "u" 0 "main"],
      [CommitSecretRow.mk 1 [97] "ct" "secret" ["t"]], 2⟩ 9 "main"
    (BranchRow.mk "main" (some 1) 0) (by decide)).2 1 rfl
  rw [h]
  rfl

theorem findBranch_some_name {rows : List BranchRow} {n : String} {b : BranchRow}
    (h : findBranch rows n = some b) : b.name = n := by
  have := List.find?_some h
  exact beq_iff_eq.mp this

/-- C8: immediately after a successful commit on branch b, get_status(b)
reports empty added, modified and deleted sets: the snapshot copied each
current secret ciphertext byte-for-byte, so the ciphertext-equality
comparison finds no difference.  The freshness hypothesis says earlier
CommitSecret rows belong to earlier commit ids, which every store built by
`commitOp` satisfies. -/
theorem c8_commit_then_status_clean (st : Store) (now : Nat) (b m author : String)
    (branch : BranchRow)
    (hb : findBranch st.branches b = some branch)
    (hnd : (st.secrets.map (fun r => r.path)).Nodup)
    (hfresh : ∀ cs ∈ st.commit_secrets, cs.commit_id < st.next_commit_id) :
    ∃ st' c, commitOp st now b m author = Except.ok (st', c) ∧
      getStatus st' b = ⟨[], [], []⟩ := by
  have hname : branch.name = b := findBranch_some_name hb
  have hcommit : commitOp st now b m author = Except.ok
      ({ st with
          commits := st.commits ++
            [CommitRow.mk st.next_commit_id branch.head_commit_id m author now b]
          commit_secrets := st.commit_secrets ++
            st.secrets.map (commitSecretOfRow st.next_commit_id)
          branches := st.branches.map (fun br => if br.name == b then
            { br with head_commit_id := some st.next_commit_id } else br)
          next_commit_id := st.next_commit_id + 1 },
        CommitRow.mk st.next_commit_id branch.head_commit_id m author now b) := by
    simp only [commitOp, hb]
  refine ⟨_, _, hcommit, ?_⟩
  have hfb : findBranch
      (st.branches.map (fun br => if br.name == b then
        { br with head_commit_id := some st.next_commit_id } else br)) b =
      some { branch with head_commit_id := some st.next_commit_id } := by
    rw [findBranch_map_head, hb]
    simp [hname]
  have hsnap : (st.commit_secrets ++
      st.secrets.map (commitSecretOfRow st.next_commit_id)).filter
        (fun cs => cs.commit_id == st.next_commit_id) =
      st.secrets.map (commitSecretOfRow st.next_commit_id) := by
    rw [List.filter_append]
    have h1 : st.commit_secrets.filter (fun cs => cs.commit_id == st.next_commit_id) = [] := by
      rw [List.filter_eq_nil_iff]
      intro cs hcs
      have := hfresh cs hcs
      simp only [beq_iff_eq]
      omega
    have h2 : (st.secrets.map (commitSecretOfRow st.next_commit_id)).filter
        (fun cs => cs.commit_id == st.next_commit_id) =
        st.secrets.map (commitSecretOfRow st.next_commit_id) := by
      rw [List.filter_eq_self]
      intro cs hcs
      obtain ⟨s, _, rfl⟩ := List.mem_map.mp hcs
      simp [commitSecretOfRow]
    rw [h1, h2, List.nil_append]
  have hfind : ∀ s ∈ st.secrets,
      (st.secrets.map (commitSecretOfRow st.next_commit_id)).find?
        (fun cs => cs.path == s.path) = some (commitSecretOfRow st.next_commit_id s) := by
    intro s hs
    have h1 : st.secrets.find? (fun x => x.path == s.path) = some s :=
      find?_eq_of_nodup_mem (fun r : SecretRow => r.path) st.secrets s hs hnd
    have h2 : (st.secrets.map (commitSecretOfRow st.next_commit_id)).find?
        (fun cs => cs.path == s.path) =
        (st.secrets.find? (fun r => r.path == s.path)).map
          (commitSecretOfRow st.next_commit_id) :=
      find?_map_key (commitSecretOfRow st.next_commit_id)
        (fun r : SecretRow => r.path) (fun cs : CommitSecretRow => cs.path)
        (fun a => rfl) st.secrets s.path
    rw [h2, h1]
    rfl
  simp only [getStatus, hfb, hsnap, snapshotAt]
  have hadded : st.secrets.filter (fun s =>
      ((st.secrets.map (commitSecretOfRow st.next_commit_id)).find?
        (fun cs => cs.path == s.path)).isNone) = [] := by
    rw [List.filter_eq_nil_iff]
    intro s hs
    rw [hfind s hs]
    simp
  have hmod : st.secrets.filter (fun s =>
      match (st.secrets.map (commitSecretOfRow st.next_commit_id)).find?
        (fun cs => cs.path == s.path) with
      | some cs => cs.encrypted_value != s.encrypted_value
      | none => false) = [] := by
    rw [List.filter_eq_nil_iff]
    intro s hs
    rw [hfind s hs]
    simp [commitSecretOfRow]
  have hdel : (st.secrets.map (commitSecretOfRow st.next_commit_id)).filter
      (fun cs => (findSecret st.secrets cs.path).isNone) = [] := by
    rw [List.filter_eq_nil_iff]
    intro cs hcs
    obtain ⟨s, hs, rfl⟩ := List.mem_map.mp hcs
    have h1 : st.secrets.find? (fun x => x.path == s.path) = some s :=
      find?_eq_of_nodup_mem (fun r : SecretRow => r.path) st.secrets s hs hnd
    simp only [commitSecretOfRow, findSecret, h1]
    simp
  rw [hadded, hmod, hdel]
  simp

/-- Witness for C8 on a one-secret store with branch main. -/
theorem c8_witness :
    ∃ st' c, commitOp
        ⟨[SecretRow.mk [97] "ct" "secret" 1 0 0 []], [], [BranchRow.mk "main" none 0],
          [], [], 1⟩ 4 "main" "m" "u" = Except.ok (st', c) ∧
      getStatus st' "main" = ⟨[], [], []⟩ :=
  c8_commit_then_status_clean
    ⟨[SecretRow.mk [97] "ct" "secret" 1 0 0 []], [], [BranchRow.mk "main" none 0], [], [], 1⟩
    4 "main" "m" "u" (BranchRow.mk "main" none 0) (by decide) (by decide) (by decide)

/-- Identical target and source snapshots with distinct paths produce no
conflicts. -/
theorem conflictsOf_self (key : Bytes) (tgt : List CommitSecretRow) :
    ∀ rest : List CommitSecretRow,
      (∀ cs ∈ rest, tgt.find? (fun t => t.path == cs.path) = some cs) →
      conflictsOf key tgt rest = Except.ok []
  | [], _ => rfl
  | cs :: rest, h => by
    simp only [conflictsOf, h cs (by simp)]
    rw [if_neg (by simp)]
    exact conflictsOf_self key tgt rest (fun c hc => h c (by simp [hc]))

/-- C4 counterexample: merging a branch into itself at the storage layer does
NOT fail; on this concrete store (branch `b` with one committed secret)
`merge_branch(b, b)` succeeds with `(true, [])` and rebuilds the working set
from b's own snapshot. -/
theorem c4_counterexample :
    mergeBranch []
        ⟨[], [], [BranchRow.mk "b" (some 1) 0], [CommitRow.mk 1 none "m" "u" 0 "b"],
          [CommitSecretRow.mk 1 [97] "ct" "secret" []], 2⟩ 5 "b" "b" =
      Except.ok
        (⟨[SecretRow.mk [97] "ct" "secret" 1 5 5 []], [], [BranchRow.mk "b" (some 1) 0],
          [CommitRow.mk 1 none "m" "u" 0 "b"],
          [CommitSecretRow.mk 1 [97] "ct" "secret" []], 2⟩, true, []) := by
  rfl

/-- C4 amended: the self-merge guard lives in the CLI `merge` command, which
fails with `Cannot merge branch into itself` before touching storage; the
storage-layer merge_branch itself succeeds with `(true, [])` when target and
source are the same branch. -/
theorem c4_self_merge_guard :
    (∀ (key : Bytes) (st : Store) (now : Nat) (b : String) (force : Bool),
      cliMerge key st now b b force = Except.error "Cannot merge branch into itself") ∧
    (∀ (key : Bytes) (st : Store) (now : Nat) (b : String) (branch : BranchRow) (scid : Nat),
      findBranch st.branches b = some branch →
      branch.head_commit_id = some scid →
      ((snapshotAt st scid).map (fun cs => cs.path)).Nodup →
      ∃ st', mergeBranch key st now b b = Except.ok (st', true, [])) := by
  constructor
  · intro key st now b force
    simp [cliMerge]
  · intro key st now b branch scid hb hhead hnd
    have hself : conflictsOf key (snapshotAt st scid) (snapshotAt st scid) = Except.ok [] :=
      conflictsOf_self key _ _ (fun cs hcs => by
        have h := find?_eq_of_nodup_mem (fun c : CommitSecretRow => c.path)
          (snapshotAt st scid) cs hcs hnd
        exact h)
    refine ⟨{ st with secrets := (snapshotAt st scid).map (restoredRow now) }, ?_⟩
    simp only [mergeBranch, hb, hhead, targetSnapshot, hself]
    rfl

/-- Witness for C4's amended statement on the store of the counterexample. -/
theorem c4_witness :
    cliMerge [] emptyStore 0 "b" "b" false = Except.error "Cannot merge branch into itself" ∧
    ∃ st', mergeBranch []
        ⟨[], [], [BranchRow.mk "b" (some 1) 0], [CommitRow.mk 1 none "m" "u" 0 "b"],
          [CommitSecretRow.mk 1 [97] "ct" "secret" []], 2⟩ 5 "b" "b" =
      Except.ok (st', true, []) :=
  ⟨c4_self_merge_guard.1 [] emptyStore 0 "b" false,
    c4_self_merge_guard.2 []
      ⟨[], [], [BranchRow.mk "b" (some 1) 0], [CommitRow.mk 1 none "m" "u" 0 "b"],
        [CommitSecretRow.mk 1 [97] "ct" "secret" []], 2⟩ 5 "b"
      (BranchRow.mk "b" (some 1) 0) 1 (by decide) rfl (by decide)⟩

/-- C2 counterexample: on a store where target's head snapshot holds path
`[97]` and source's head snapshot holds only path `[98]` (no overlap, hence
no conflicts), merge_branch returns `(true, [])` but the new working set
contains ONLY the source row: path `[97]`, present in the target snapshot,
has no current row afterwards, so the working set is not the union of the
two snapshots. -/
theorem c2_counterexample :
    (mergeBranch []
        ⟨[], [], [BranchRow.mk "t" (some 1) 0, BranchRow.mk "s" (some 2) 0],
          [CommitRow.mk 1 none "m" "u" 0 "t", CommitRow.mk 2 none "m" "u" 0 "s"],
          [CommitSecretRow.mk 1 [97] "cta" "secret" [],
            CommitSecretRow.mk 2 [98] "ctb" "secret" []], 3⟩ 5 "t" "s" =
      Except.ok
        (⟨[SecretRow.mk [98] "ctb" "secret" 1 5 5 []], [],
          [BranchRow.mk "t" (some 1) 0, BranchRow.mk "s" (some 2) 0],
          [CommitRow.mk 1 none "m" "u" 0 "t", CommitRow.mk 2 none "m" "u" 0 "s"],
          [CommitSecretRow.mk 1 [97] "cta" "secret" [],
            CommitSecretRow.mk 2 [98] "ctb" "secret" []], 3⟩, true, [])) ∧
    (CommitSecretRow.mk 1 [97] "cta" "secret" [] ∈ snapshotAt
        ⟨[], [], [BranchRow.mk "t" (some 1) 0, BranchRow.mk "s" (some 2) 0],
          [CommitRow.mk 1 none "m" "u" 0 "t", CommitRow.mk 2 none "m" "u" 0 "s"],
          [CommitSecretRow.mk 1 [97] "cta" "secret" [],
            CommitSecretRow.mk 2 [98] "ctb" "secret" []], 3⟩ 1) ∧
    findSecret [SecretRow.mk [98] "ctb" "secret" 1 5 5 []] [97] = none := by
  refine ⟨?_, ?_, ?_⟩
  · rfl
  · decide
  · decide

/-- C2 amended: a conflict-free merge_branch returns `(true, [])` and
replaces the working set with exactly the SOURCE head snapshot (one row per
source CommitSecret, version reset to 1); paths present only in the target
snapshot are dropped, so the result is not the union of the two
snapshots. -/
theorem c2_merge_replaces_with_source (key : Bytes) (st : Store) (now : Nat)
    (t s : String) (target source : BranchRow) (scid : Nat)
    (ht : findBranch st.branches t = some target)
    (hs : findBranch st.branches s = some source)
    (hhead : source.head_commit_id = some scid)
    (hnoconf : conflictsOf key (targetSnapshot st target.head_commit_id)
      (snapshotAt st scid) = Except.ok []) :
    mergeBranch key st now t s =
      Except.ok ({ st with secrets := (snapshotAt st scid).map (restoredRow now) }, true, []) := by
  simp only [mergeBranch, ht, hs, hhead, hnoconf]
  rfl

/-- Witness for C2's amended statement on the counterexample store. -/
theorem c2_witness :
    mergeBranch []
        ⟨[], [], [BranchRow.mk "t" (some 1) 0, BranchRow.mk "s" (some 2) 0],
          [CommitRow.mk 1 none "m" "u" 0 "t", CommitRow.mk 2 none "m" "u" 0 "s"],
          [CommitSecretRow.mk 1 [97] "cta" "secret" [],
            CommitSecretRow.mk 2 [98] "ctb" "secret" []], 3⟩ 5 "t" "s" =
      Except.ok
        ({(⟨[], [], [BranchRow.mk "t" (some 1) 0, BranchRow.mk "s" (some 2) 0],
          [CommitRow.mk 1 none "m" "u" 0 "t", CommitRow.mk 2 none "m" "u" 0 "s"],
          [CommitSecretRow.mk 1 [97] "cta" "secret" [],
            CommitSecretRow.mk 2 [98] "ctb" "secret" []], 3⟩ : Store) with
            secrets := (snapshotAt
              ⟨[], [], [BranchRow.mk "t" (some 1) 0, BranchRow.mk "s" (some 2) 0],
                [CommitRow.mk 1 none "m" "u" 0 "t", CommitRow.mk 2 none "m" "u" 0 "s"],
                [CommitSecretRow.mk 1 [97] "cta" "secret" [],
                  CommitSecretRow.mk 2 [98] "ctb" "secret" []], 3⟩ 2).map (restoredRow 5) },
          true, []) :=
  c2_merge_replaces_with_source []
    ⟨[], [], [BranchRow.mk "t" (some 1) 0, BranchRow.mk "s" (some 2) 0],
      [CommitRow.mk 1 none "m" "u" 0 "t", CommitRow.mk 2 none "m" "u" 0 "s"],
      [CommitSecretRow.mk 1 [97] "cta" "secret" [],
        CommitSecretRow.mk 2 [98] "ctb" "secret" []], 3⟩ 5 "t" "s"
    (BranchRow.mk "t" (some 1) 0) (BranchRow.mk "s" (some 2) 0) 2
    (by decide) (by decide) rfl (by rfl)

/-- One source row's contribution to the conflict set, as the spec words it:
a MergeConflict (with both decrypted values) when the path is also in the
target snapshot with differing ciphertext, nothing otherwise. -/
def conflictOf? (key : Bytes) (tgt : List CommitSecretRow) (cs : CommitSecretRow) :
    Option MergeConflict :=
  match tgt.find? (fun t => t.path == cs.path) with
  | some t =>
    if t.encrypted_value ≠ cs.encrypted_value then
      match Encryptor.decrypt ⟨key⟩ t.encrypted_value,
          Encryptor.decrypt ⟨key⟩ cs.encrypted_value with
      | some cur, some inc => some (MergeConflict.mk cs.path cur inc)
      | _, _ => none
    else none
  | none => none

/-- The conflict set as the spec words it: one MergeConflict per path present
in both snapshots with differing ciphertext. -/
def conflictList (key : Bytes) (tgt src : List CommitSecretRow) : List MergeConflict :=
  src.filterMap (conflictOf? key tgt)

theorem conflictList_cons_none (key : Bytes) (tgt : List CommitSecretRow)
    (cs : CommitSecretRow) (src : List CommitSecretRow)
    (h : conflictOf? key tgt cs = none) :
    conflictList key tgt (cs :: src) = conflictList key tgt src := by
  simp [conflictList, List.filterMap_cons, h]

theorem conflictList_cons_some (key : Bytes) (tgt : List CommitSecretRow)
    (cs : CommitSecretRow) (src : List CommitSecretRow) (b : MergeConflict)
    (h : conflictOf? key tgt cs = some b) :
    conflictList key tgt (cs :: src) = b :: conflictList key tgt src := by
  simp [conflictList, List.filterMap_cons, h]

theorem conflictOf?_some_path (key : Bytes) (tgt : List CommitSecretRow)
    (cs : CommitSecretRow) (c : MergeConflict) (h : conflictOf? key tgt cs = some c) :
    c.path = cs.path := by
  cases hf : tgt.find? (fun t => t.path == cs.path) with
  | none => simp [conflictOf?, hf] at h
  | some t =>
    by_cases hne : t.encrypted_value = cs.encrypted_value
    · simp [conflictOf?, hf, hne] at h
    · cases hcur : Encryptor.decrypt ⟨key⟩ t.encrypted_value with
      | none => simp [conflictOf?, hf, hne, hcur] at h
      | some cur =>
        cases hinc : Encryptor.decrypt ⟨key⟩ cs.encrypted_value with
        | none => simp [conflictOf?, hf, hne, hcur, hinc] at h
        | some inc =>
          simp [conflictOf?, hf, hne, hcur, hinc] at h
          rw [← h]

theorem conflictsOf_eq_conflictList (key : Bytes) (tgt : List CommitSecretRow)
    (hdect : ∀ cs ∈ tgt, (Encryptor.decrypt ⟨key⟩ cs.encrypted_value).isSome) :
    ∀ src, (∀ cs ∈ src, (Encryptor.decrypt ⟨key⟩ cs.encrypted_value).isSome) →
      conflictsOf key tgt src = Except.ok (conflictList key tgt src)
  | [], _ => rfl
  | cs :: src, hdecs => by
    have ih := conflictsOf_eq_conflictList key tgt hdect src
      (fun c hc => hdecs c (by simp [hc]))
    cases hf : tgt.find? (fun t => t.path == cs.path) with
    | none =>
      rw [conflictList_cons_none key tgt cs src (by simp [conflictOf?, hf])]
      simp [conflictsOf, hf, ih]
    | some t =>
      by_cases hne : t.encrypted_value = cs.encrypted_value
      · rw [conflictList_cons_none key tgt cs src (by simp [conflictOf?, hf, hne])]
        simp [conflictsOf, hf, hne, ih]
      · obtain ⟨cur, hcur⟩ := Option.isSome_iff_exists.mp
          (hdect t (List.mem_of_find?_eq_some hf))
        obtain ⟨inc, hinc⟩ := Option.isSome_iff_exists.mp (hdecs cs (by simp))
        rw [conflictList_cons_some key tgt cs src (MergeConflict.mk cs.path cur inc)
          (by simp [conflictOf?, hf, hne, hcur, hinc])]
        simp [conflictsOf, hf, hne, hcur, hinc, ih]

theorem conflictList_eq_nil_iff (key : Bytes) (tgt src : List CommitSecretRow)
    (hndt : (tgt.map (fun c => c.path)).Nodup)
    (hdect : ∀ cs ∈ tgt, (Encryptor.decrypt ⟨key⟩ cs.encrypted_value).isSome)
    (hdecs : ∀ cs ∈ src, (Encryptor.decrypt ⟨key⟩ cs.encrypted_value).isSome) :
    conflictList key tgt src = [] ↔
      ¬ ∃ cs ∈ src, ∃ tcs ∈ tgt,
        tcs.path = cs.path ∧ tcs.encrypted_value ≠ cs.encrypted_value := by
  rw [conflictList, List.filterMap_eq_nil_iff]
  constructor
  · rintro hall ⟨cs, hcs, tcs, htcs, hpath, hne⟩
    have hfind : tgt.find? (fun t => t.path == tcs.path) = some tcs :=
      find?_eq_of_nodup_mem (fun c : CommitSecretRow => c.path) tgt tcs htcs hndt
    rw [hpath] at hfind
    have h := hall cs hcs
    obtain ⟨cur, hcur⟩ := Option.isSome_iff_exists.mp (hdect tcs htcs)
    obtain ⟨inc, hinc⟩ := Option.isSome_iff_exists.mp (hdecs cs hcs)
    simp [conflictOf?, hfind, hne, hcur, hinc] at h
  · intro hnex cs hcs
    cases hf : tgt.find? (fun t => t.path == cs.path) with
    | none => simp [conflictOf?, hf]
    | some t =>
      have htmem := List.mem_of_find?_eq_some hf
      have hpath : t.path = cs.path := by
        have hp := List.find?_some hf
        simpa using hp
      by_cases hne : t.encrypted_value = cs.encrypted_value
      · simp [conflictOf?, hf, hne]
      · exact absurd ⟨cs, hcs, t, htmem, hpath, hne⟩ hnex

theorem conflictList_paths_sublist (key : Bytes) (tgt : List CommitSecretRow) :
    ∀ src, ((conflictList key tgt src).map (fun c => c.path)).Sublist
      (src.map (fun c => c.path))
  | [] => List.Sublist.refl []
  | cs :: src => by
    have ih := conflictList_paths_sublist key tgt src
    cases hc : conflictOf? key tgt cs with
    | none =>
      rw [conflictList_cons_none key tgt cs src hc]
      simp only [List.map_cons]
      exact ih.cons cs.path
    | some c =>
      rw [conflictList_cons_some key tgt cs src c hc]
      simp only [List.map_cons, conflictOf?_some_path key tgt cs c hc]
      exact ih.cons₂ cs.path

/-- C9: with a non-null source head and snapshots with distinct, decryptable
rows, merge_branch returns `(false, conflicts)` exactly when some path in
both snapshots carries differing ciphertext; in that case the store is left
untouched and `conflicts` is the conflict list: one entry per such path,
carrying both decrypted values. -/
theorem c9_merge_conflicts (key : Bytes) (st : Store) (now : Nat)
    (t s : String) (target source : BranchRow) (scid : Nat)
    (ht : findBranch st.branches t = some target)
    (hs : findBranch st.branches s = some source)
    (hhead : source.head_commit_id = some scid)
    (hndt : ((targetSnapshot st target.head_commit_id).map (fun c => c.path)).Nodup)
    (hnds : ((snapshotAt st scid).map (fun c => c.path)).Nodup)
    (hdect : ∀ cs ∈ targetSnapshot st target.head_commit_id,
      (Encryptor.decrypt ⟨key⟩ cs.encrypted_value).isSome)
    (hdecs : ∀ cs ∈ snapshotAt st scid,
      (Encryptor.decrypt ⟨key⟩ cs.encrypted_value).isSome) :
    ∃ ok conflicts st', mergeBranch key st now t s = Except.ok (st', ok, conflicts) ∧
      (ok = false ↔ ∃ cs ∈ snapshotAt st scid,
        ∃ tcs ∈ targetSnapshot st target.head_commit_id,
          tcs.path = cs.path ∧ tcs.encrypted_value ≠ cs.encrypted_value) ∧
      (ok = false → st' = st ∧
        conflicts = conflictList key (targetSnapshot st target.head_commit_id)
          (snapshotAt st scid) ∧
        (conflicts.map (fun c => c.path)).Nodup) := by
  have hco := conflictsOf_eq_conflictList key _ hdect (snapshotAt st scid) hdecs
  have hiff := conflictList_eq_nil_iff key (targetSnapshot st target.head_commit_id)
    (snapshotAt st scid) hndt hdect hdecs
  by_cases hempty : conflictList key (targetSnapshot st target.head_commit_id)
      (snapshotAt st scid) = []
  · refine ⟨true, [], { st with secrets := (snapshotAt st scid).map (restoredRow now) },
      ?_, ?_, ?_⟩
    · simp only [mergeBranch, ht, hs, hhead, hco, hempty]
      rfl
    · simp only [Bool.true_eq_false, false_iff]
      exact hiff.mp hempty
    · intro h
      cases h
  · refine ⟨false, conflictList key (targetSnapshot st target.head_commit_id)
      (snapshotAt st scid), st, ?_, ?_, ?_⟩
    · simp only [mergeBranch, ht, hs, hhead, hco]
      rw [if_neg (by simpa [List.isEmpty_iff] using hempty)]
    · simp only [true_iff]
      by_contra hnex
      exact hempty (hiff.mpr hnex)
    · intro _
      exact ⟨rfl, rfl, (conflictList_paths_sublist key _ _).nodup hnds⟩

/-- The concrete store used to witness C9: branch t's head snapshot holds
path `[97]` encrypting `[49]`, branch s's head snapshot holds path `[97]`
encrypting `[50]` under different nonces, a genuine conflict. -/
def c9Store : Store :=
  ⟨[], [], [BranchRow.mk "t" (some 1) 0, BranchRow.mk "s" (some 2) 0],
    [CommitRow.mk 1 none "m" "u" 0 "t", CommitRow.mk 2 none "m" "u" 0 "s"],
    [CommitSecretRow.mk 1 [97]
        (Encryptor.encrypt ⟨List.replicate 32 7⟩ (List.replicate 12 1) [49]) "secret" [],
      CommitSecretRow.mk 2 [97]
        (Encryptor.encrypt ⟨List.replicate 32 7⟩ (List.replicate 12 2) [50]) "secret" []],
    3⟩

/-- Witness for C9: on `c9Store`, merging s into t hits the conflict. -/
theorem c9_witness :
    ∃ ok conflicts st',
      mergeBranch (List.replicate 32 7) c9Store 5 "t" "s" = Except.ok (st', ok, conflicts) ∧
        (ok = false ↔ ∃ cs ∈ snapshotAt c9Store 2,
          ∃ tcs ∈ targetSnapshot c9Store (BranchRow.mk "t" (some 1) 0).head_commit_id,
            tcs.path = cs.path ∧ tcs.encrypted_value ≠ cs.encrypted_value) ∧
        (ok = false → st' = c9Store ∧
          conflicts = conflictList (List.replicate 32 7)
            (targetSnapshot c9Store (BranchRow.mk "t" (some 1) 0).head_commit_id)
            (snapshotAt c9Store 2) ∧
          (conflicts.map (fun c => c.path)).Nodup) :=
  c9_merge_conflicts (List.replicate 32 7) c9Store 5 "t" "s"
    (BranchRow.mk "t" (some 1) 0) (BranchRow.mk "s" (some 2) 0) 2
    (by decide) (by decide) rfl (by decide) (by decide)
    (by decide) (by decide)

/-! Version contiguity (the invariant of spec §8.1 / claim C3). -/

/-- The history versions recorded for a path. -/
def histVersions (st : Store) (p : Bytes) : List Nat :=
  (st.secret_versions.filter (fun v => v.path == p)).map (fun v => v.version)

/-- The multiset of versions visible for a path: the current row's version
(when there is one) together with every SecretVersion row. -/
def pathVersions (st : Store) (p : Bytes) : List Nat :=
  (match findSecret st.secrets p with
   | some r => [r.version]
   | none => []) ++ histVersions st p

/-- The list is, as a multiset, exactly 1, 2, ..., N for some N ≥ 1. -/
def contiguous (l : List Nat) : Prop :=
  l ≠ [] ∧ List.Perm l ((List.range l.length).map (fun i => i + 1))

instance (l : List Nat) : Decidable (contiguous l) := by
  unfold contiguous; infer_instance

/-- The inductive strengthening of the contiguity invariant: every current
row has version ≥ 1 whose history is exactly 1..version-1, and history rows
never outlive their current row. -/
def StoreWF (st : Store) : Prop :=
  (st.secrets.map (fun r => r.path)).Nodup ∧
  (∀ r ∈ st.secrets, 1 ≤ r.version ∧
    List.Perm (histVersions st r.path) ((List.range (r.version - 1)).map (fun i => i + 1))) ∧
  (∀ v ∈ st.secret_versions, (findSecret st.secrets v.path).isSome)

instance (st : Store) : Decidable (StoreWF st) := by
  unfold StoreWF; infer_instance

theorem mem_pathOf_findSecret {rows : List SecretRow} {p : Bytes}
    (h : (findSecret rows p).isSome) : p ∈ rows.map (fun r => r.path) := by
  cases hf : findSecret rows p with
  | none => rw [hf] at h; cases h
  | some r =>
    have hm := List.mem_of_find?_eq_some hf
    have hp : r.path = p := findSecret_some_path hf
    exact hp ▸ List.mem_map_of_mem _ hm

theorem findSecret_isSome_of_mem_path {rows : List SecretRow} {p : Bytes}
    (h : p ∈ rows.map (fun r => r.path)) : (findSecret rows p).isSome := by
  obtain ⟨r, hr, rfl⟩ := List.mem_map.mp h
  cases hf : findSecret rows r.path with
  | none =>
    rw [findSecret, List.find?_eq_none] at hf
    exact absurd (by simp) (hf r hr)
  | some x => rfl

theorem findSecret_filter_ne (rows : List SecretRow) (p q : Bytes) (hne : q ≠ p) :
    findSecret (rows.filter (fun r => r.path != p)) q = findSecret rows q := by
  induction rows with
  | nil => rfl
  | cons a rows ih =>
    by_cases hp : a.path = p
    · rw [findSecret, findSecret, List.filter_cons,
        show (a.path != p) = false by simp [hp]]
      simp only [Bool.false_eq_true, if_false]
      rw [List.find?_cons_of_neg _ (by simp [hp]; exact fun h => hne h.symm)]
      exact ih
    · rw [findSecret, findSecret, List.filter_cons,
        show (a.path != p) = true by simp [hp]]
      simp only [if_true]
      by_cases hq : a.path = q
      · rw [List.find?_cons_of_pos _ (by simp [hq]),
          List.find?_cons_of_pos _ (by simp [hq])]
      · rw [List.find?_cons_of_neg _ (by simp [hq]),
          List.find?_cons_of_neg _ (by simp [hq])]
        exact ih

theorem histVersions_filter_ne (st : Store) (p q : Bytes) (hne : q ≠ p) :
    ((st.secret_versions.filter (fun v => v.path != p)).filter
        (fun v => v.path == q)).map (fun v => v.version) = histVersions st q := by
  rw [List.filter_filter]
  unfold histVersions
  congr 1
  apply List.filter_congr
  intro v _
  by_cases hv : v.path = q
  · simp [hv, hne]
  · simp [hv]

theorem histVersions_append_other (st : Store) (rec : VersionRow) (q : Bytes)
    (hne : rec.path ≠ q) :
    ((st.secret_versions ++ [rec]).filter (fun v => v.path == q)).map
      (fun v => v.version) = histVersions st q := by
  rw [List.filter_append]
  rw [show List.filter (fun v => v.path == q) [rec] = [] by simp [hne]]
  simp [histVersions]

theorem histVersions_append_same (st : Store) (rec : VersionRow) (q : Bytes)
    (heq : rec.path = q) :
    ((st.secret_versions ++ [rec]).filter (fun v => v.path == q)).map
      (fun v => v.version) = histVersions st q ++ [rec.version] := by
  rw [List.filter_append]
  rw [show List.filter (fun v => v.path == q) [rec] = [rec] by simp [heq]]
  simp [histVersions]

theorem map_path_update (rows : List SecretRow) (p : Bytes) (u : SecretRow)
    (hu : u.path = p) :
    (rows.map (fun r => if r.path == p then u else r)).map (fun r => r.path) =
      rows.map (fun r => r.path) := by
  rw [List.map_map]
  apply List.map_congr_left
  intro a _
  by_cases h : a.path = p
  · simp [h, hu]
  · simp [h]

theorem eq_of_findSecret_nodup {rows : List SecretRow}
    (hnd : (rows.map (fun r => r.path)).Nodup) {p : Bytes} {a cur : SecretRow}
    (ha : a ∈ rows) (hap : a.path = p) (hcur : findSecret rows p = some cur) : a = cur := by
  have h1 : rows.find? (fun x => x.path == a.path) = some a :=
    find?_eq_of_nodup_mem (fun r : SecretRow => r.path) rows a ha hnd
  rw [hap] at h1
  rw [findSecret, h1] at hcur
  exact Option.some.inj hcur

/-- Both set_secret (existing row) and rollback mutate the store the same
way as far as versions go: the current row at `p` is replaced by a row of
version `cur.version + 1` and a history row of version `cur.version` is
appended.  This preserves the strengthened contiguity invariant. -/
theorem wf_update_bump (st : Store) (p : Bytes) (cur u : SecretRow) (rec : VersionRow)
    (hcur : findSecret st.secrets p = some cur)
    (hu_path : u.path = p) (hu_ver : u.version = cur.version + 1)
    (hrec_path : rec.path = p) (hrec_ver : rec.version = cur.version)
    (hwf : StoreWF st) :
    StoreWF { st with
      secrets := st.secrets.map (fun r => if r.path == p then u else r)
      secret_versions := st.secret_versions ++ [rec] } := by
  obtain ⟨hnd, hinv, hlive⟩ := hwf
  have hcurmem := List.mem_of_find?_eq_some hcur
  have hcurpath : cur.path = p := findSecret_some_path hcur
  have hcur1 : 1 ≤ cur.version := (hinv cur hcurmem).1
  refine ⟨?_, ?_, ?_⟩
  · show ((st.secrets.map (fun r => if r.path == p then u else r)).map
      (fun r => r.path)).Nodup
    rw [map_path_update st.secrets p u hu_path]
    exact hnd
  · intro r hr
    obtain ⟨a, ha, rfl⟩ := List.mem_map.mp hr
    by_cases hap : a.path = p
    · have haeq : a = cur := eq_of_findSecret_nodup hnd ha hap hcur
      rw [if_pos (by simp [hap])]
      constructor
      · omega
      · show List.Perm (((st.secret_versions ++ [rec]).filter
          (fun v => v.path == u.path)).map (fun v => v.version)) _
        rw [histVersions_append_same st rec u.path (by rw [hrec_path, hu_path])]
        have hold := (hinv cur hcurmem).2
        rw [hu_ver, hrec_ver, Nat.add_sub_cancel]
        rw [show cur.version = (cur.version - 1) + 1 by omega, List.range_succ,
          List.map_append]
        simp only [List.map_cons, List.map_nil]
        rw [show (cur.version - 1) + 1 = cur.version by omega]
        refine List.Perm.append ?_ (List.Perm.refl _)
        rw [hcurpath] at hold
        rw [hu_path]
        exact hold
    · rw [if_neg (by simp [hap])]
      refine ⟨(hinv a ha).1, ?_⟩
      show List.Perm (((st.secret_versions ++ [rec]).filter
        (fun v => v.path == a.path)).map (fun v => v.version)) _
      rw [histVersions_append_other st rec a.path (by rw [hrec_path]; exact fun h => hap h.symm)]
      exact (hinv a ha).2
  · intro v hv
    show (findSecret (st.secrets.map (fun r => if r.path == p then u else r)) v.path).isSome
    rw [findSecret_map_ite st.secrets p u hu_path v.path]
    rcases List.mem_append.mp hv with hv | hv
    · have := hlive v hv
      cases hfv : findSecret st.secrets v.path with
      | none => rw [hfv] at this; cases this
      | some x => rfl
    · have hvrec : v = rec := by simpa using hv
      rw [hvrec, hrec_path, hcur]
      rfl

/-- set_secret preserves the strengthened contiguity invariant. -/
theorem storeWF_setSecret (key : Bytes) (st : Store) (nonce : Bytes) (now : Nat)
    (user : String) (path value : Bytes) (ty : String) (tags : List String)
    (hwf : StoreWF st) :
    StoreWF (setSecret key st nonce now user path value ty tags).1 := by
  cases hex : findSecret st.secrets path with
  | some existing =>
    have hpath : existing.path = path := findSecret_some_path hex
    simp only [setSecret, hex]
    exact wf_update_bump st path existing _ _ hex hpath rfl hpath rfl hwf
  | none =>
    obtain ⟨hnd, hinv, hlive⟩ := hwf
    simp only [setSecret, hex]
    have hnotmem : path ∉ st.secrets.map (fun r => r.path) := by
      intro hmem
      have := findSecret_isSome_of_mem_path hmem
      rw [hex] at this
      cases this
    refine ⟨?_, ?_, ?_⟩
    · show ((st.secrets ++ [SecretRow.mk path _ ty 1 now now tags]).map
        (fun r => r.path)).Nodup
      rw [List.map_append]
      rw [List.nodup_append]
      refine ⟨hnd, by simp, ?_⟩
      intro a hmem hmem2
      simp only [List.map_cons, List.map_nil, List.mem_singleton] at hmem2
      rw [hmem2] at hmem
      exact hnotmem hmem
    · intro r hr
      rcases List.mem_append.mp hr with hr | hr
      · exact hinv r hr
      · have hrnew : r = SecretRow.mk path (Encryptor.encrypt ⟨key⟩ nonce value)
            ty 1 now now tags := by simpa using hr
        rw [hrnew]
        refine ⟨by simp, ?_⟩
        have hempty : histVersions st path = [] := by
          unfold histVersions
          rw [show st.secret_versions.filter (fun v => v.path == path) = [] from ?_]
          · rfl
          · rw [List.filter_eq_nil_iff]
            intro v hv
            have := hlive v hv
            intro hbeq
            rw [beq_iff_eq.mp hbeq, hex] at this
            cases this
        show List.Perm (histVersions st path) _
        rw [hempty]
        simp
    · intro v hv
      have := hlive v hv
      show (findSecret (st.secrets ++
        [SecretRow.mk path (Encryptor.encrypt ⟨key⟩ nonce value) ty 1 now now tags])
          v.path).isSome
      rw [findSecret, List.find?_append]
      cases hfv : findSecret st.secrets v.path with
      | none =>
        rw [hfv] at this
        cases this
      | some x =>
        rw [findSecret] at hfv
        rw [hfv]
        rfl

/-- rollback preserves the strengthened contiguity invariant. -/
theorem storeWF_rollback (key : Bytes) (st : Store) (now : Nat) (user : String)
    (path : Bytes) (k : Nat) (st' : Store) (sec : Secret)
    (hok : rollback key st now user path k = Except.ok (st', sec))
    (hwf : StoreWF st) : StoreWF st' := by
  cases hvm : st.secret_versions.find? (fun v => v.path == path && v.version == k) with
  | none =>
    have heq : rollback key st now user path k =
        Except.error ("Version " ++ toString k ++ " not found for " ++ showPath path) := by
      simp only [rollback, hvm]
    rw [heq] at hok
    cases hok
  | some vm =>
    cases hcur : findSecret st.secrets path with
    | none =>
      have heq : rollback key st now user path k =
          Except.error ("Secret " ++ showPath path ++ " not found") := by
        simp only [rollback, hvm, hcur]
      rw [heq] at hok
      cases hok
    | some cur =>
      cases hdec : Encryptor.decrypt ⟨key⟩ vm.encrypted_value with
      | none =>
        have heq : rollback key st now user path k = Except.error "Decryption failed" := by
          simp only [rollback, hvm, hcur, hdec]
        rw [heq] at hok
        cases hok
      | some val =>
        have hpath : cur.path = path := findSecret_some_path hcur
        have heq : rollback key st now user path k = Except.ok
            ({ st with
                secrets := st.secrets.map (fun r => if r.path == path then
                  { cur with encrypted_value := vm.encrypted_value, version := cur.version + 1, updated_at := now } else r)
                secret_versions := st.secret_versions ++
                  [VersionRow.mk cur.path cur.encrypted_value cur.version
                    cur.updated_at user] },
              Secret.mk cur.path val cur.type (cur.version + 1)
                cur.created_at now cur.tags) := by
          simp only [rollback, hvm, hcur, hdec]
        rw [heq] at hok
        cases hok
        exact wf_update_bump st path cur _ _ hcur hpath rfl hpath rfl hwf

/-- delete_secret preserves the strengthened contiguity invariant. -/
theorem storeWF_delete (st : Store) (path : Bytes) (hwf : StoreWF st) :
    StoreWF (deleteSecret st path).1 := by
  cases hex : findSecret st.secrets path with
  | none => simpa [deleteSecret, hex] using hwf
  | some cur =>
    obtain ⟨hnd, hinv, hlive⟩ := hwf
    simp only [deleteSecret, hex]
    refine ⟨?_, ?_, ?_⟩
    · show ((st.secrets.filter (fun r => r.path != path)).map (fun r => r.path)).Nodup
      exact hnd.sublist (List.Sublist.map _ (List.filter_sublist st.secrets))
    · intro r hr
      have hrmem := List.mem_of_mem_filter hr
      have hrne : r.path ≠ path := by
        have := List.of_mem_filter hr
        simpa using this
      refine ⟨(hinv r hrmem).1, ?_⟩
      show List.Perm (((st.secret_versions.filter (fun v => v.path != path)).filter
        (fun v => v.path == r.path)).map (fun v => v.version)) _
      rw [histVersions_filter_ne st path r.path hrne]
      exact (hinv r hrmem).2
    · intro v hv
      have hvmem := List.mem_of_mem_filter hv
      have hvne : v.path ≠ path := by
        have := List.of_mem_filter hv
        simpa using this
      show (findSecret (st.secrets.filter (fun r => r.path != path)) v.path).isSome
      rw [findSecret_filter_ne st.secrets path v.path hvne]
      exact hlive v hvmem

/-- checkout preserves the strengthened contiguity invariant ONLY when no
SecretVersion rows remain (they are never cleaned up by checkout). -/
theorem storeWF_checkout (st : Store) (now : Nat) (b : String) (st' : Store)
    (hv : st.secret_versions = [])
    (hsnap : ∀ cid, ((snapshotAt st cid).map (fun cs => cs.path)).Nodup)
    (hok : checkoutBranch st now b = Except.ok st') : StoreWF st' := by
  cases hb : findBranch st.branches b with
  | none =>
    have heq : checkoutBranch st now b =
        Except.error ("Branch \x27" ++ b ++ "\x27 not found") := by
      simp only [checkoutBranch, hb]
    rw [heq] at hok
    cases hok
  | some branch =>
    cases hhead : branch.head_commit_id with
    | none =>
      have heq : checkoutBranch st now b = Except.ok { st with secrets := [] } := by
        simp only [checkoutBranch, hb, hhead]
      rw [heq] at hok
      cases hok
      refine ⟨by simp, by simp, ?_⟩
      intro v hv2
      have hv3 : v ∈ st.secret_versions := hv2
      rw [hv] at hv3
      cases hv3
    | some cid =>
      have heq : checkoutBranch st now b =
          Except.ok { st with secrets := (snapshotAt st cid).map (restoredRow now) } := by
        simp only [checkoutBranch, hb, hhead]
      rw [heq] at hok
      cases hok
      refine ⟨?_, ?_, ?_⟩
      · show (((snapshotAt st cid).map (restoredRow now)).map (fun r => r.path)).Nodup
        rw [List.map_map]
        exact hsnap cid
      · intro r hr
        obtain ⟨cs, _, rfl⟩ := List.mem_map.mp hr
        refine ⟨by simp [restoredRow], ?_⟩
        show List.Perm ((st.secret_versions.filter _).map (fun v => v.version)) _
        rw [hv]
        simp [restoredRow]
      · intro v hv2
        have hv3 : v ∈ st.secret_versions := hv2
        rw [hv] at hv3
        cases hv3

theorem contiguous_of_storeWF (st : Store) (hwf : StoreWF st) (p : Bytes) (r : SecretRow)
    (hr : findSecret st.secrets p = some r) : contiguous (pathVersions st p) := by
  obtain ⟨hnd, hinv, _⟩ := hwf
  have hmem := List.mem_of_find?_eq_some hr
  have hpath : r.path = p := findSecret_some_path hr
  have h1 : 1 ≤ r.version := (hinv r hmem).1
  have h2 := (hinv r hmem).2
  rw [hpath] at h2
  have hcons : pathVersions st p = r.version :: histVersions st p := by
    simp [pathVersions, hr]
  constructor
  · rw [hcons]
    simp
  · rw [hcons]
    have hlen : (histVersions st p).length = r.version - 1 := by
      rw [h2.length_eq]
      simp
    simp only [List.length_cons, hlen]
    rw [show r.version - 1 + 1 = r.version by omega]
    rw [show r.version = (r.version - 1) + 1 by omega, List.range_succ, List.map_append]
    simp only [List.map_cons, List.map_nil]
    rw [show r.version - 1 + 1 = r.version by omega]
    exact (h2.cons r.version).trans (List.perm_append_singleton _ _).symm

/-- C3 (amended): the per-path version-contiguity invariant (in its
inductive strengthening StoreWF: history is exactly 1..version-1 and history
rows never outlive their current row) implies the claimed contiguity and is
preserved by set_secret, rollback and delete_secret; checkout preserves it
only under the extra premise that no SecretVersion rows remain — in general
checkout re-inserts rows at version 1 while old history survives, breaking
the invariant (see the counterexample). -/
theorem c3_version_contiguity :
    (∀ (st : Store) (p : Bytes) (r : SecretRow), StoreWF st →
      findSecret st.secrets p = some r → contiguous (pathVersions st p)) ∧
    (∀ (key : Bytes) (st : Store) (nonce : Bytes) (now : Nat) (user : String)
      (path value : Bytes) (ty : String) (tags : List String), StoreWF st →
      StoreWF (setSecret key st nonce now user path value ty tags).1) ∧
    (∀ (key : Bytes) (st : Store) (now : Nat) (user : String) (path : Bytes) (k : Nat)
      (st' : Store) (sec : Secret), StoreWF st →
      rollback key st now user path k = Except.ok (st', sec) → StoreWF st') ∧
    (∀ (st : Store) (path : Bytes), StoreWF st → StoreWF (deleteSecret st path).1) ∧
    (∀ (st : Store) (now : Nat) (b : String) (st' : Store), StoreWF st →
      st.secret_versions = [] →
      (∀ cid, ((snapshotAt st cid).map (fun cs => cs.path)).Nodup) →
      checkoutBranch st now b = Except.ok st' → StoreWF st') :=
  ⟨fun st p r hwf hr => contiguous_of_storeWF st hwf p r hr,
   fun key st nonce now user path value ty tags hwf =>
     storeWF_setSecret key st nonce now user path value ty tags hwf,
   fun key st now user path k st' sec hwf hok =>
     storeWF_rollback key st now user path k st' sec hok hwf,
   fun st path hwf => storeWF_delete st path hwf,
   fun st now b st' _ hv hsnap hok => storeWF_checkout st now b st' hv hsnap hok⟩

def c3Key : Bytes := List.replicate 32 7

/-- The trace refuting C3 as stated: create main, set path `[97]` twice
(current version 2, history version 1), commit, then check out main again. -/
def c3Trace : Except String Store := do
  let r1 ← createBranch emptyStore 0 "main" none
  let r2 := setSecret c3Key r1.1 (List.replicate 12 1) 1 "u" [97] [49] "secret" []
  let r3 := setSecret c3Key r2.1 (List.replicate 12 2) 2 "u" [97] [50] "secret" []
  let r4 ← commitOp r3.1 3 "main" "m" "u"
  checkoutBranch r4.1 4 "main"

/-- C3 counterexample: after the reachable trace of `c3Trace`, path `[97]`
has a current row (version 1, re-inserted by checkout) while its old
SecretVersion row (version 1) survives, so the version multiset is the
non-contiguous `[1, 1]`: checkout does NOT preserve the invariant. -/
theorem c3_counterexample :
    ∃ st', c3Trace = Except.ok st' ∧ (findSecret st'.secrets [97]).isSome ∧
      ¬ contiguous (pathVersions st' [97]) := by
  refine ⟨⟨[SecretRow.mk [97]
      (Encryptor.encrypt ⟨c3Key⟩ (List.replicate 12 2) [50]) "secret" 1 4 4 []],
    [VersionRow.mk [97]
      (Encryptor.encrypt ⟨c3Key⟩ (List.replicate 12 1) [49]) 1 1 "u"],
    [BranchRow.mk "main" (some 1) 0], [CommitRow.mk 1 none "m" "u" 3 "main"],
    [CommitSecretRow.mk 1 [97]
      (Encryptor.encrypt ⟨c3Key⟩ (List.replicate 12 2) [50]) "secret" []], 2⟩,
    ?_, ?_, ?_⟩
  · rfl
  · rfl
  · decide

/-- Witness for C3's amended statement: each preservation conjunct applied
at a concrete store. -/
theorem c3_amended_witness :
    contiguous (pathVersions
      ⟨[SecretRow.mk [97] "ct" "secret" 1 0 0 []], [], [], [], [], 1⟩ [97]) ∧
    StoreWF (setSecret c3Key
      ⟨[SecretRow.mk [97] "ct" "secret" 1 0 0 []], [], [], [], [], 1⟩
      (List.replicate 12 1) 1 "u" [97] [50] "secret" []).1 ∧
    (∃ st' sec, rollback c3Key
        ⟨[SecretRow.mk [97] "ct" "secret" 2 0 1 []],
          [VersionRow.mk [97]
            (Encryptor.encrypt ⟨c3Key⟩ (List.replicate 12 1) [49]) 1 0 "u"],
          [], [], [], 1⟩ 5 "u" [97] 1 = Except.ok (st', sec) ∧ StoreWF st') ∧
    StoreWF (deleteSecret
      ⟨[SecretRow.mk [97] "ct" "secret" 1 0 0 []], [], [], [], [], 1⟩ [97]).1 ∧
    (∃ st', checkoutBranch
        ⟨[SecretRow.mk [97] "ct" "secret" 1 0 0 []], [],
          [BranchRow.mk "main" (some 1) 0], [CommitRow.mk 1 none "m" "u" 0 "main"],
          [CommitSecretRow.mk 1 [98] "cs" "secret" []], 2⟩ 4 "main" = Except.ok st' ∧
      StoreWF st') := by
  refine ⟨?_, ?_, ?_, ?_, ?_⟩
  · exact c3_version_contiguity.1 _ [97] (SecretRow.mk [97] "ct" "secret" 1 0 0 [])
      (by decide) (by decide)
  · exact c3_version_contiguity.2.1 c3Key _ _ 1 "u" [97] [50] "secret" [] (by decide)
  · refine ⟨⟨[SecretRow.mk [97]
        (Encryptor.encrypt ⟨c3Key⟩ (List.replicate 12 1) [49]) "secret" 3 0 5 []],
      [VersionRow.mk [97]
          (Encryptor.encrypt ⟨c3Key⟩ (List.replicate 12 1) [49]) 1 0 "u",
        VersionRow.mk [97] "ct" 2 1 "u"], [], [], [], 1⟩,
      Secret.mk [97] [49] "secret" 3 0 5 [], rfl, ?_⟩
    exact c3_version_contiguity.2.2.1 c3Key
      ⟨[SecretRow.mk [97] "ct" "secret" 2 0 1 []],
        [VersionRow.mk [97]
          (Encryptor.encrypt ⟨c3Key⟩ (List.replicate 12 1) [49]) 1 0 "u"],
        [], [], [], 1⟩ 5 "u" [97] 1
      ⟨[SecretRow.mk [97]
          (Encryptor.encrypt ⟨c3Key⟩ (List.replicate 12 1) [49]) "secret" 3 0 5 []],
        [VersionRow.mk [97]
            (Encryptor.encrypt ⟨c3Key⟩ (List.replicate 12 1) [49]) 1 0 "u",
          VersionRow.mk [97] "ct" 2 1 "u"], [], [], [], 1⟩
      (Secret.mk [97] [49] "secret" 3 0 5 []) (by decide) rfl
  · exact c3_version_contiguity.2.2.2.1 _ [97] (by decide)
  · refine ⟨⟨[SecretRow.mk [98] "cs" "secret" 1 4 4 []], [],
      [BranchRow.mk "main" (some 1) 0], [CommitRow.mk 1 none "m" "u" 0 "main"],
      [CommitSecretRow.mk 1 [98] "cs" "secret" []], 2⟩, rfl, ?_⟩
    exact c3_version_contiguity.2.2.2.2
      ⟨[SecretRow.mk [97] "ct" "secret" 1 0 0 []], [],
        [BranchRow.mk "main" (some 1) 0], [CommitRow.mk 1 none "m" "u" 0 "main"],
        [CommitSecretRow.mk 1 [98] "cs" "secret" []], 2⟩ 4 "main"
      ⟨[SecretRow.mk [98] "cs" "secret" 1 4 4 []], [],
        [BranchRow.mk "main" (some 1) 0], [CommitRow.mk 1 none "m" "u" 0 "main"],
        [CommitSecretRow.mk 1 [98] "cs" "secret" []], 2⟩
      (by decide) rfl
      (by
        intro cid
        show ((List.filter (fun cs => cs.commit_id == cid)
          [CommitSecretRow.mk 1 [98] "cs" "secret" []]).map (fun cs => cs.path)).Nodup
        by_cases h : (1 : Nat) = cid
        · subst h
          decide
        · rw [List.filter_cons,
            show ((CommitSecretRow.mk 1 [98] "cs" "secret" []).commit_id == cid) = false
              from beq_eq_false_iff_ne.mpr h]
          simp)
      rfl

theorem decryptRows_mem (key : Bytes) :
    ∀ (rows : List SecretRow) (l : List Secret), decryptRows key rows = some l →
      ∀ s ∈ l, ∃ r ∈ rows, secretOfRow key r = some s
  | [], l, h => by
    cases h
    intro s hs
    cases hs
  | r :: rest, l, h => by
    intro s hs
    cases hso : secretOfRow key r with
    | none => rw [decryptRows, hso] at h; cases h
    | some s0 =>
      rw [decryptRows, hso] at h
      cases hrest : decryptRows key rest with
      | none => rw [hrest] at h; cases h
      | some l0 =>
        rw [hrest] at h
        cases h
        rcases List.mem_cons.mp hs with rfl | hs
        · exact ⟨r, by simp, hso⟩
        · obtain ⟨r2, hr2, hso2⟩ := decryptRows_mem key rest l0 hrest s hs
          exact ⟨r2, by simp [hr2], hso2⟩

def c10Key : Bytes := List.replicate 32 7

/-- The store witnessing C10: path `[97]` holds plain value `[88]`, path
`[98]` holds `[36, 123, 97, 125, 33]` — the bytes of `$`, `{`, `a`, `}`,
`!`, i.e. a resolvable reference to `[97]` followed by `!`. -/
def c10Store : Store :=
  ⟨[SecretRow.mk [97]
      (Encryptor.encrypt ⟨c10Key⟩ (List.replicate 12 1) [88]) "secret" 1 0 0 [],
    SecretRow.mk [98]
      (Encryptor.encrypt ⟨c10Key⟩ (List.replicate 12 2) [36, 123, 97, 125, 33])
      "secret" 1 0 0 []],
   [], [], [], [], 1⟩

/-- C10: get_secret runs the decrypted value through `${name}` expansion
(resolving references via get_secret recursively, leaving a reference
verbatim when resolution fails), while list_secrets returns each row's raw
decrypted value; consequently on `c10Store`, whose path `[98]` contains a
resolvable reference, get_secret and the list_secrets entry disagree. -/
theorem c10_get_expands_list_does_not :
    (∀ (key : Bytes) (st : Store) (fuel : Nat) (p : Bytes) (row : SecretRow) (dec : Bytes),
      findSecret st.secrets p = some row →
      Encryptor.decrypt ⟨key⟩ row.encrypted_value = some dec →
      getSecretValue key st (fuel + 2) p =
        some (some (substRefs (fun nm => replaceVar key st fuel nm [p]) dec))) ∧
    (∀ (key : Bytes) (st : Store) (l : List Secret),
      listSecrets key st none = some l →
      ∀ s ∈ l, ∃ r ∈ st.secrets, secretOfRow key r = some s) ∧
    (getSecretValue c10Key c10Store 5 [98] = some (some [88, 33]) ∧
      (∃ l s, listSecrets c10Key c10Store none = some l ∧ s ∈ l ∧
        s.path = [98] ∧ s.value = [36, 123, 97, 125, 33]) ∧
      ([88, 33] : Bytes) ≠ [36, 123, 97, 125, 33]) := by
  have hmain : ∀ (key : Bytes) (st : Store) (fuel : Nat) (p : Bytes)
      (row : SecretRow) (dec : Bytes),
      findSecret st.secrets p = some row →
      Encryptor.decrypt ⟨key⟩ row.encrypted_value = some dec →
      getSecretValue key st (fuel + 2) p =
        some (some (substRefs (fun nm => replaceVar key st fuel nm [p]) dec)) := by
    intro key st fuel p row dec hrow hdec
    simp [getSecretValue, expandVariables, hrow, hdec]
  have hdeca : Encryptor.decrypt ⟨c10Key⟩
      (Encryptor.encrypt ⟨c10Key⟩ (List.replicate 12 1) [88]) = some [88] := by
    decide
  have hdecb : Encryptor.decrypt ⟨c10Key⟩
      (Encryptor.encrypt ⟨c10Key⟩ (List.replicate 12 2) [36, 123, 97, 125, 33]) =
      some [36, 123, 97, 125, 33] := by
    decide
  refine ⟨hmain, ?_, ?_, ?_, by decide⟩
  · intro key st l h s hs
    simp only [listSecrets] at h
    obtain ⟨r, hr, hso⟩ := decryptRows_mem key _ l h s hs
    exact ⟨r, List.mem_mergeSort.mp hr, hso⟩
  · have ha : getSecretValue c10Key c10Store 2 [97] = some (some [88]) := by
      have h := hmain c10Key c10Store 0 [97]
        (SecretRow.mk [97]
          (Encryptor.encrypt ⟨c10Key⟩ (List.replicate 12 1) [88]) "secret" 1 0 0 [])
        [88] (by decide) hdeca
      simpa [substRefs] using h
    have hb := hmain c10Key c10Store 3 [98]
      (SecretRow.mk [98]
        (Encryptor.encrypt ⟨c10Key⟩ (List.replicate 12 2) [36, 123, 97, 125, 33])
        "secret" 1 0 0 [])
      [36, 123, 97, 125, 33] (by decide) hdecb
    rw [show (3 + 2 : Nat) = 5 from rfl] at hb
    have hres : replaceVar c10Key c10Store 3 [97] [[98]] = some [88] := by
      show replaceVar c10Key c10Store (2 + 1) [97] [[98]] = some [88]
      simp [replaceVar, ha, expandVariables, substRefs, Except.toOption]
    rw [hb]
    simp [substRefs, splitAtClose, hres, dollarByte, openBraceByte, closeBraceByte]
  · refine ⟨[Secret.mk [97] [88] "secret" 1 0 0 [],
      Secret.mk [98] [36, 123, 97, 125, 33] "secret" 1 0 0 []],
      Secret.mk [98] [36, 123, 97, 125, 33] "secret" 1 0 0 [], ?_, by simp, by simp, by simp⟩
    show decryptRows c10Key
      ((c10Store.secrets).mergeSort (fun a b => lexLe a.path b.path)) = _
    rw [List.mergeSort_of_sorted (by decide)]
    have h1 := hdeca
    have h2 := hdecb
    simp only [List.replicate] at h1 h2
    simp [c10Store, decryptRows, secretOfRow, hdeca, hdecb, h1, h2]

/-- Witness for C10's universal part at a concrete store and path. -/
theorem c10_witness :
    getSecretValue c10Key c10Store (0 + 2) [97] =
      some (some (substRefs (fun nm => replaceVar c10Key c10Store 0 nm [[97]]) [88])) :=
  c10_get_expands_list_does_not.1 c10Key c10Store 0 [97]
    (SecretRow.mk [97]
      (Encryptor.encrypt ⟨c10Key⟩ (List.replicate 12 1) [88]) "secret" 1 0 0 [])
    [88] (by decide) (by decide)

end CruxVault
